import Mathlib

/-!
Concurrency limit (package `limit`, file `limit.go`)

A shallow embedding of the type `Limit` with its operations `NewLimit`,
`Start`, `Done` and `available`, as an interleaving state machine, and the
properties of it that the specification states.

The model:

* `usage` and `concurrency` are `uint32` in the source. They are natural
  numbers here, every update of `usage` is reduced modulo `2^32`, and the
  theorems that need it assume a capacity below `2^32`.
* `lock` is a `sync.RWMutex`, modelled by the number of read holds and a
  write-hold flag: a read hold is granted when there is no write hold, a
  write hold when there is no hold at all. (The preference that Go gives to
  a waiting writer over new readers only removes interleavings.)
* `cond` is a `sync.Cond` on the read side of `lock`. `Wait` is the
  sequence: take a ticket (`notifyListAdd`), `L.Unlock()`, sleep until the
  ticket is notified (`notifyListWait`), `L.Lock()`. `Broadcast` notifies
  every ticket taken so far.
* Every goroutine has a program point that names the statement of `Start`
  or `Done` it executes next. An event is a call of `Start` or `Done` by an
  idle goroutine, or the execution of one statement by one goroutine. A run
  is a list of events; all interleavings are runs.
* Every goroutine counts the `Start` calls it has returned from and not yet
  answered with `Done`. The calling contract reads: `Done` is called only
  with a positive count.

Layout:

Definitions come first, then the lemmas on the machine (sums over the
goroutines, the lock invariant, the invariants of `usage`, runs of a single
goroutine, the wakeup invariant), then one theorem for each claim.
-/

namespace limit

/-- The modulus of `uint32` arithmetic. -/
def wrap : Nat := 4294967296

/-- The `Limit` struct: the two counters and the state of the `RWMutex`. -/
structure Limit where
  concurrency : Nat
  usage : Nat
  readers : Nat
  writer : Bool
  deriving DecidableEq, Repr

/-- `NewLimit(parallel)`: usage zero, lock free. -/
def NewLimit (parallel : Nat) : Limit :=
  { concurrency := parallel, usage := 0, readers := 0, writer := false }

/-- `available()`, lines 97-107. -/
def available (l : Limit) : Bool :=
  if l.concurrency = 0 then true
  else if l.usage < l.concurrency then true
  else false

/-- `atomic.AddUint32(&l.usage, 1)`, line 70. -/
def addOne (l : Limit) : Limit :=
  { l with usage := (l.usage + 1) % wrap }

/-- `atomic.AddUint32(&l.usage, ^uint32(0))`, line 81: the sum of `^uint32(0)`,
which is `2^32 - 1`, and `usage`, modulo `2^32`. -/
def addMax (l : Limit) : Limit :=
  { l with usage := (4294967295 + l.usage) % wrap }

/-- `Done()` without interleaving, lines 77-92: the limit after the
decrement, and the value of `broadcast`, which decides whether
`cond.Broadcast()` is called. -/
def Done (l : Limit) : Limit × Bool :=
  let l1 := addMax l
  (l1, if available l1 then true else false)

/-- The re-check and the commit of `Start()` under the write lock, lines
62-71: `none` when the re-check fails (`goto reattempt`), otherwise the limit
at the return. -/
def Start (l : Limit) : Option Limit :=
  if !available l then none else some (addOne l)

/-- Program points of a goroutine: `idle` is outside of `Start` and `Done`,
the others name the statement that is executed next. -/
inductive PC
  | idle
  | sRLock
  | sCheck
  | sWaitAdd
  | sWaitUnlock
  | sWaitPark
  | sWaitRelock
  | sRUnlock
  | sLock
  | sRecheck
  | sRetry
  | sAdd
  | sUnlock
  | dLock
  | dAdd
  | dCheck
  | dUnlock
  | dIf
  | dBroadcast
  deriving DecidableEq, Repr

/-- A caller: its program point, the number of `Start` calls it has returned
from and not yet answered with a `Done` call, whether its ticket on the
condition variable has been notified, and the local `broadcast` of `Done`. -/
structure Goroutine where
  pc : PC
  held : Nat
  notified : Bool
  broadcast : Bool
  deriving DecidableEq, Repr

/-- A goroutine that has not called anything yet. -/
def fresh : Goroutine :=
  { pc := PC.idle, held := 0, notified := false, broadcast := false }

/-- One statement of `Start` or `Done` executed by goroutine `g` on limit
`l`. `none`: the goroutine cannot move (it is blocked, or it is idle).
The third component tells whether `cond.Broadcast()` was executed.

* `sRLock` line 54, `sCheck` line 55, `sWaitAdd` .. `sWaitRelock` line 56,
  `sRUnlock` line 59, `sLock` line 62, `sRecheck` line 64, `sRetry`
  lines 66-67, `sAdd` line 70, `sUnlock` lines 71-72;
* `dLock` line 80, `dAdd` line 81, `dCheck` lines 84-86, `dUnlock` line 87,
  `dIf` line 89, `dBroadcast` line 90. -/
def stepG (l : Limit) (g : Goroutine) : Option (Limit × Goroutine × Bool) :=
  match g.pc with
  | PC.idle => none
  | PC.sRLock =>
      if l.writer then none
      else some ({ l with readers := l.readers + 1 }, { g with pc := PC.sCheck }, false)
  | PC.sCheck =>
      if !available l then some (l, { g with pc := PC.sWaitAdd }, false)
      else some (l, { g with pc := PC.sRUnlock }, false)
  | PC.sWaitAdd =>
      some (l, { g with pc := PC.sWaitUnlock, notified := false }, false)
  | PC.sWaitUnlock =>
      some ({ l with readers := l.readers - 1 }, { g with pc := PC.sWaitPark }, false)
  | PC.sWaitPark =>
      if g.notified then some (l, { g with pc := PC.sWaitRelock, notified := false }, false)
      else none
  | PC.sWaitRelock =>
      if l.writer then none
      else some ({ l with readers := l.readers + 1 }, { g with pc := PC.sCheck }, false)
  | PC.sRUnlock =>
      some ({ l with readers := l.readers - 1 }, { g with pc := PC.sLock }, false)
  | PC.sLock =>
      if l.writer || l.readers != 0 then none
      else some ({ l with writer := true }, { g with pc := PC.sRecheck }, false)
  | PC.sRecheck =>
      if !available l then some (l, { g with pc := PC.sRetry }, false)
      else some (l, { g with pc := PC.sAdd }, false)
  | PC.sRetry =>
      some ({ l with writer := false }, { g with pc := PC.sRLock }, false)
  | PC.sAdd =>
      some (addOne l, { g with pc := PC.sUnlock }, false)
  | PC.sUnlock =>
      some ({ l with writer := false }, { g with pc := PC.idle, held := g.held + 1 }, false)
  | PC.dLock =>
      if l.writer || l.readers != 0 then none
      else some ({ l with writer := true }, { g with pc := PC.dAdd }, false)
  | PC.dAdd =>
      some (addMax l, { g with pc := PC.dCheck }, false)
  | PC.dCheck =>
      some (l, { g with pc := PC.dUnlock,
                        broadcast := if available l then true else g.broadcast }, false)
  | PC.dUnlock =>
      some ({ l with writer := false }, { g with pc := PC.dIf }, false)
  | PC.dIf =>
      if g.broadcast then some (l, { g with pc := PC.dBroadcast }, false)
      else some (l, { g with pc := PC.idle }, false)
  | PC.dBroadcast =>
      some (l, { g with pc := PC.idle }, true)

/-- The effect of `cond.Broadcast()` on one goroutine: a registered ticket
is notified. -/
def wake (g : Goroutine) : Goroutine :=
  if g.pc = PC.sWaitUnlock ∨ g.pc = PC.sWaitPark then { g with notified := true } else g

/-- The limit with the goroutines that use it. -/
structure State where
  l : Limit
  gs : List Goroutine
  deriving DecidableEq, Repr

/-- `NewLimit(c)` shared by `n` goroutines. -/
def init (c n : Nat) : State :=
  { l := NewLimit c, gs := List.replicate n fresh }

/-- What can happen next: goroutine `i` calls `Start`, calls `Done`, or
executes the next statement of the call it is in. -/
inductive Event
  | callStart (i : Nat)
  | callDone (i : Nat)
  | run (i : Nat)
  deriving DecidableEq, Repr

/-- One event. A call is possible for an idle goroutine; `Done` begins with
`broadcast := false` (line 78). -/
def step (s : State) : Event → Option State
  | Event.callStart i =>
      match s.gs[i]? with
      | some g =>
          if g.pc = PC.idle then some { s with gs := s.gs.set i ({ g with pc := PC.sRLock }) }
          else none
      | none => none
  | Event.callDone i =>
      match s.gs[i]? with
      | some g =>
          if g.pc = PC.idle then
            some { s with
              gs := s.gs.set i ({ g with pc := PC.dLock, held := g.held - 1, broadcast := false }) }
          else none
      | none => none
  | Event.run i =>
      match s.gs[i]? with
      | some g =>
          match stepG s.l g with
          | some (l1, g1, b) =>
              some { l := l1, gs := if b then (s.gs.set i g1).map wake else s.gs.set i g1 }
          | none => none
      | none => none

/-- The calling contract: `Done` only by a caller that has returned from a
`Start` it has not yet answered. -/
def obeys (s : State) : Event → Bool
  | Event.callDone i =>
      match s.gs[i]? with
      | some g => decide (0 < g.held)
      | none => true
  | _ => true

/-- A run of events; `none` when an event is not possible. -/
def exec (s : State) : List Event → Option State
  | [] => some s
  | e :: es =>
      match step s e with
      | some s1 => exec s1 es
      | none => none

/-- Whether a run of events keeps the calling contract throughout. -/
def keeps (s : State) : List Event → Bool
  | [] => true
  | e :: es =>
      obeys s e &&
      match step s e with
      | some s1 => keeps s1 es
      | none => true

/-- The events of one whole `Start` call of goroutine `i` when it does not
have to wait. -/
def soloStart (i : Nat) : List Event :=
  Event.callStart i :: List.replicate 7 (Event.run i)

/-- The events of one whole `Done` call of goroutine `i` that broadcasts. -/
def soloDone (i : Nat) : List Event :=
  Event.callDone i :: List.replicate 6 (Event.run i)

/-- The sum of a measure over all goroutines. -/
def total (f : Goroutine → Nat) (gs : List Goroutine) : Nat :=
  (gs.map f).sum

/-- Read holds of the lock a goroutine has at its program point. -/
def rd (g : Goroutine) : Nat :=
  match g.pc with
  | PC.sCheck | PC.sWaitAdd | PC.sWaitUnlock | PC.sRUnlock => 1
  | _ => 0

/-- Write holds of the lock a goroutine has at its program point. -/
def wr (g : Goroutine) : Nat :=
  match g.pc with
  | PC.sRecheck | PC.sRetry | PC.sAdd | PC.sUnlock | PC.dAdd | PC.dCheck | PC.dUnlock => 1
  | _ => 0

/-- The write-hold flag as a number. -/
def wnum (l : Limit) : Nat :=
  if l.writer then 1 else 0

/-- The lock is in step with the program points: the read holds and the
write hold are those of the goroutines inside the locked regions, and a
write hold excludes read holds. -/
def LockInv (s : State) : Prop :=
  total rd s.gs = s.l.readers ∧ total wr s.gs = wnum s.l ∧
    (s.l.writer = true → s.l.readers = 0)

/-- The share of a goroutine in `usage` when the calling contract is kept:
the `Start` calls it has returned from and not answered, a `Done` call that
has not decremented yet, a `Start` call that has incremented and not
returned yet. -/
def share (g : Goroutine) : Nat :=
  g.held +
    match g.pc with
    | PC.dLock | PC.dAdd | PC.sUnlock => 1
    | _ => 0

/-- The number of callers that have returned from `Start` and have not yet
called `Done`. -/
def outstanding (s : State) : Nat :=
  total (fun g => g.held) s.gs

/-- The state invariant under the calling contract, for a limit of capacity
`c`: the lock invariant, `usage` is the sum of the shares and at most `c`,
and a goroutine about to increment sees `usage < c`. -/
def UseInv (c : Nat) (s : State) : Prop :=
  LockInv s ∧ s.l.concurrency = c ∧ s.l.usage = total share s.gs ∧ s.l.usage ≤ c ∧
    ∀ (j : Nat) (g : Goroutine), s.gs[j]? = some g → g.pc = PC.sAdd → s.l.usage < c

/-- A run on a limit of capacity 2 with three goroutines: two `Start` calls,
a third one that has to wait, and a `Done` call. -/
def demoRun : List Event :=
  soloStart 0 ++ soloStart 1 ++
    [Event.callStart 2, Event.run 2, Event.run 2, Event.run 2, Event.run 2] ++ soloDone 0

/-- The state at the end of `demoRun`. -/
def demoEnd : State :=
  { l := { concurrency := 2, usage := 1, readers := 0, writer := false },
    gs := [{ pc := PC.idle, held := 0, notified := false, broadcast := true },
           { pc := PC.idle, held := 1, notified := false, broadcast := false },
           { pc := PC.sWaitPark, held := 0, notified := true, broadcast := false }] }

/-- The goroutine `g` alone executes `k` statements, none of them the
broadcast. -/
def soloG : Nat → Limit → Goroutine → Option (Limit × Goroutine)
  | 0, l, g => some (l, g)
  | k + 1, l, g =>
      match stepG l g with
      | some (l1, g1, false) => soloG k l1 g1
      | _ => none

/-- A run on a limit of capacity 1 with three goroutines: goroutine 0
completes `Start`, goroutine 1 calls `Start` and sleeps in `cond.Wait()`,
goroutine 0 executes `Done` up to its unlock, and goroutine 2 executes a
whole `Done` call. -/
def quietRun : List Event :=
  soloStart 0 ++
    [Event.callStart 1, Event.run 1, Event.run 1, Event.run 1, Event.run 1] ++
    [Event.callDone 0, Event.run 0, Event.run 0, Event.run 0, Event.run 0] ++
    (Event.callDone 2 :: List.replicate 5 (Event.run 2))

/-- The state at the end of `quietRun`. -/
def quietEnd : State :=
  { l := { concurrency := 1, usage := 4294967295, readers := 0, writer := false },
    gs := [{ pc := PC.dIf, held := 0, notified := false, broadcast := true },
           { pc := PC.sWaitPark, held := 0, notified := false, broadcast := false },
           { pc := PC.idle, held := 0, notified := false, broadcast := false }] }

/-- The state before the `Done` call of goroutine 2 in `quietRun`. -/
def quietMid : State :=
  { l := { concurrency := 1, usage := 0, readers := 0, writer := false },
    gs := [{ pc := PC.dIf, held := 0, notified := false, broadcast := true },
           { pc := PC.sWaitPark, held := 0, notified := false, broadcast := false },
           { pc := PC.idle, held := 0, notified := false, broadcast := false }] }

/-- The state of `demoRun` before its `Done` call. -/
def demoMid : State :=
  { l := { concurrency := 2, usage := 2, readers := 0, writer := false },
    gs := [{ pc := PC.idle, held := 1, notified := false, broadcast := false },
           { pc := PC.idle, held := 1, notified := false, broadcast := false },
           { pc := PC.sWaitPark, held := 0, notified := false, broadcast := false }] }

/-- The state of `demoRun` in which goroutine 0 holds the write lock in
`Done` and is about to decrement. -/
def demoLocked : State :=
  { l := { concurrency := 2, usage := 2, readers := 0, writer := true },
    gs := [{ pc := PC.dAdd, held := 0, notified := false, broadcast := false },
           { pc := PC.idle, held := 1, notified := false, broadcast := false },
           { pc := PC.sWaitPark, held := 0, notified := false, broadcast := false }] }

/-- The goroutine is inside `cond.Wait()` (line 56). -/
def onCond (g : Goroutine) : Bool :=
  match g.pc with
  | PC.sWaitAdd | PC.sWaitUnlock | PC.sWaitPark | PC.sWaitRelock => true
  | _ => false

/-- The goroutine is not in the middle of an update of `usage`: it is not
in `Start` between the passed re-check and the return (lines 70-72), and not
in `Done` before the decrement (lines 80-81). -/
def settled (g : Goroutine) : Bool :=
  match g.pc with
  | PC.sAdd | PC.sUnlock | PC.dLock | PC.dAdd => false
  | _ => true

/-- The outstanding `Start` calls, caller by caller. -/
def helds (s : State) : List Nat :=
  s.gs.map (fun g => g.held)

/-- On a limit without capacity bound no goroutine is inside `cond.Wait()`
or on the `goto reattempt` branch. -/
def FreeInv (s : State) : Prop :=
  s.l.concurrency = 0 ∧
    ∀ (j : Nat) (g : Goroutine), s.gs[j]? = some g → onCond g = false ∧ g.pc ≠ PC.sRetry

/-- The limit of capacity `c` is full, nobody is about to change `usage`,
and the outstanding calls are those of the list `hs`. -/
def FullInv (c : Nat) (hs : List Nat) (s : State) : Prop :=
  s.l.concurrency = c ∧ s.l.usage = c ∧
    (∀ (j : Nat) (g : Goroutine), s.gs[j]? = some g → settled g = true) ∧ helds s = hs

/-- A state of a limit of capacity 1 whose only slot is taken by goroutine 0,
while goroutine 1 is idle. -/
def fullOne : State :=
  { l := { concurrency := 1, usage := 1, readers := 0, writer := false },
    gs := [{ pc := PC.idle, held := 1, notified := false, broadcast := false },
           { pc := PC.idle, held := 0, notified := false, broadcast := false }] }

/-- The state `fullOne` after goroutine 1 has called `Start` and gone to
sleep in `cond.Wait()`. -/
def fullOneAsleep : State :=
  { l := { concurrency := 1, usage := 1, readers := 0, writer := false },
    gs := [{ pc := PC.idle, held := 1, notified := false, broadcast := false },
           { pc := PC.sWaitPark, held := 0, notified := false, broadcast := false }] }

/-- A run on a limit without capacity bound: two whole `Start` calls and a
third one up to its passed wait-loop check. -/
def freeRun : List Event :=
  soloStart 0 ++ soloStart 1 ++ [Event.callStart 0, Event.run 0, Event.run 0]

/-- The state at the end of `freeRun`. -/
def freeEnd : State :=
  { l := { concurrency := 0, usage := 2, readers := 1, writer := false },
    gs := [{ pc := PC.sRUnlock, held := 1, notified := false, broadcast := false },
           { pc := PC.idle, held := 1, notified := false, broadcast := false }] }

/-- The goroutine is in a `Start` call that has not incremented yet. -/
def pendS (g : Goroutine) : Nat :=
  match g.pc with
  | PC.sRLock | PC.sCheck | PC.sWaitAdd | PC.sWaitUnlock | PC.sWaitPark | PC.sWaitRelock
  | PC.sRUnlock | PC.sLock | PC.sRecheck | PC.sRetry | PC.sAdd => 1
  | _ => 0

/-- The goroutine is in a `Done` call that has not decremented yet. -/
def pendD (g : Goroutine) : Nat :=
  match g.pc with
  | PC.dLock | PC.dAdd => 1
  | _ => 0

/-- The number of `Start` calls in a run. -/
def starts : List Event → Nat
  | [] => 0
  | Event.callStart _ :: es => starts es + 1
  | _ :: es => starts es

/-- The number of `Done` calls in a run. -/
def dones : List Event → Nat
  | [] => 0
  | Event.callDone _ :: es => dones es + 1
  | _ :: es => dones es

/-- A run of completed calls on a limit of capacity 1: goroutine 0 and then
goroutine 1 execute `Start` and `Done`. -/
def pairRun : List Event :=
  soloStart 0 ++ soloDone 0 ++ soloStart 1 ++ soloDone 1

/-- The state at the end of `pairRun`. -/
def pairEnd : State :=
  { l := { concurrency := 1, usage := 0, readers := 0, writer := false },
    gs := [{ pc := PC.idle, held := 0, notified := false, broadcast := true },
           { pc := PC.idle, held := 0, notified := false, broadcast := true }] }

/-- The number of increments of `usage` that goroutine `i` executes in a
run from state `s`. -/
def incs (i : Nat) (s : State) : List Event → Nat
  | [] => 0
  | e :: es =>
      (if e = Event.run i ∧ (s.gs[i]?).map (fun g => g.pc) = some PC.sAdd then 1 else 0) +
        match step s e with
        | some s1 => incs i s1 es
        | none => 0

/-- The number of times goroutine `i` takes the `goto reattempt` branch in a
run from state `s`. -/
def retries (i : Nat) (s : State) : List Event → Nat
  | [] => 0
  | e :: es =>
      (if e = Event.run i ∧ (s.gs[i]?).map (fun g => g.pc) = some PC.sRetry then 1 else 0) +
        match step s e with
        | some s1 => retries i s1 es
        | none => 0

/-- The relation between goroutine `g` at some point of a run, the same
goroutine `g1` at a later point where it is idle, and the number `k` of its
increments of `usage` in between, when it makes no new call: one increment
when `g` is in `Start` before the increment, none when `g` is at the return
of `Start` or idle. -/
def Phase (g g1 : Goroutine) (k : Nat) : Prop :=
  (pendS g = 1 → k = 1 ∧ g1.held = g.held + 1) ∧
    (g.pc = PC.sUnlock → k = 0 ∧ g1.held = g.held + 1) ∧
    (g.pc = PC.idle → k = 0 ∧ g1.held = g.held)

/-- The events after the call of `Start` by goroutine 0 in `retryRun`: it
passes the wait loop, goroutine 1 takes the only slot, the re-check of
goroutine 0 fails, it restarts and goes to sleep, goroutine 1 executes
`Done`, and goroutine 0 wakes up, passes both checks and returns. -/
def retryTail : List Event :=
  List.replicate 3 (Event.run 0) ++ soloStart 1 ++ List.replicate 3 (Event.run 0) ++
    List.replicate 4 (Event.run 0) ++ soloDone 1 ++ List.replicate 8 (Event.run 0)

/-- A run on a limit of capacity 1 in which the `Start` call of goroutine 0
restarts once before it returns. -/
def retryRun : List Event :=
  Event.callStart 0 :: retryTail

/-- The state at the end of `retryRun`. -/
def retryEnd : State :=
  { l := { concurrency := 1, usage := 1, readers := 0, writer := false },
    gs := [{ pc := PC.idle, held := 1, notified := false, broadcast := false },
           { pc := PC.idle, held := 0, notified := false, broadcast := true }] }

/-- The state of `retryRun` in which goroutine 0 holds the write lock for
its re-check while the only slot is taken. -/
def retryMid : State :=
  { l := { concurrency := 1, usage := 1, readers := 0, writer := true },
    gs := [{ pc := PC.sRecheck, held := 0, notified := false, broadcast := false },
           { pc := PC.idle, held := 1, notified := false, broadcast := false }] }

/-- The first `k` `Start` calls, one after the other; call number `k` is
made by goroutine `f k`. -/
def seqStarts (f : Nat → Nat) : Nat → List Event
  | 0 => []
  | k + 1 => seqStarts f k ++ soloStart (f k)

/-- Nobody holds the lock and every goroutine is idle. -/
def Quiet (s : State) : Prop :=
  s.l.writer = false ∧ s.l.readers = 0 ∧ ∀ g ∈ s.gs, g.pc = PC.idle

/-- The admission scenario on `NewLimit(N)` with `n` goroutines, the callers
`f 0, f 1, ...` and one more caller `j`.

* Each of the first `N` calls of `Start` begins in a quiet state with
  `usage = k` and `available()` true, is past the wait loop after its first
  three events, past the re-check after six, and returns after eight with
  `usage = k + 1`.
* After them `usage = N` and `available()` is false; the `Start` call of `j`
  goes to sleep in `cond.Wait()`, unnotified, and cannot move.
* Goroutine `f 0` has a `Start` to answer; after its whole `Done` call
  `usage = N - 1` and `available()` is true, and then `j` runs to the return
  of its `Start` call, with `usage = N` again. -/
def Admission (N n : Nat) (f : Nat → Nat) (j : Nat) : Prop :=
  (∀ k, k < N → ∃ s m1 m2 s1 g1 g2,
    exec (init N n) (seqStarts f k) = some s ∧ Quiet s ∧ s.l.usage = k ∧
    available s.l = true ∧
    exec s ((soloStart (f k)).take 3) = some m1 ∧ m1.gs[f k]? = some g1 ∧
    g1.pc = PC.sRUnlock ∧
    exec s ((soloStart (f k)).take 6) = some m2 ∧ m2.gs[f k]? = some g2 ∧
    g2.pc = PC.sAdd ∧ available m2.l = true ∧
    exec s (soloStart (f k)) = some s1 ∧ s1.l.usage = k + 1 ∧
    exec (init N n) (seqStarts f (k + 1)) = some s1) ∧
  ∃ sN sP sD sF gj g0,
    exec (init N n) (seqStarts f N) = some sN ∧ sN.l.usage = N ∧ available sN.l = false ∧
    exec sN (Event.callStart j :: List.replicate 4 (Event.run j)) = some sP ∧
    sP.gs[j]? = some gj ∧ gj.pc = PC.sWaitPark ∧ gj.notified = false ∧
    step sP (Event.run j) = none ∧ sP.l.usage = N ∧
    sP.gs[f 0]? = some g0 ∧ g0.pc = PC.idle ∧ 0 < g0.held ∧
    exec sP (soloDone (f 0)) = some sD ∧ sD.l.usage = N - 1 ∧ available sD.l = true ∧
    exec sD (List.replicate 8 (Event.run j)) = some sF ∧ sF.l.usage = N ∧
    sF.gs[j]? = some { gj with pc := PC.idle, held := gj.held + 1 }

/-- The state after `k` uninterrupted `Start` calls on `NewLimit(N)` with `n`
goroutines: `usage = k`, the lock free, everybody idle, and goroutine `f 0`
with a `Start` to answer once `k > 0`. -/
def Lined (N n : Nat) (f : Nat → Nat) (k : Nat) (s : State) : Prop :=
  s.l = Limit.mk N k 0 false ∧ s.gs.length = n ∧ (∀ g ∈ s.gs, g.pc = PC.idle) ∧
    (0 < k → ∃ g0, s.gs[f 0]? = some g0 ∧ 0 < g0.held)

/-- One half of `lassoRound`: goroutine `a` holds the write lock in `Done`
after its decrement; it unlocks and broadcasts, goroutine `b`, which is
idle, executes a whole `Start` call and takes the slot, the woken goroutine
1 finds the limit full at its wait-loop check and goes back to sleep, and
`b` executes `Done` up to its decrement. -/
def lassoHalf (a b : Nat) : List Event :=
  List.replicate 4 (Event.run a) ++ soloStart b ++ List.replicate 5 (Event.run 1) ++
    [Event.callDone b, Event.run b, Event.run b]

/-- A round of events in which every goroutine runs, every `Start` that
returns is answered by its `Done`, and two `Done` calls drop `usage` below
the capacity while goroutine 1 is asleep in `Start`. -/
def lassoRound : List Event :=
  lassoHalf 0 2 ++ lassoHalf 2 0

/-- The state at the end of `lassoStem` and of `lassoRound`: goroutine 0 has
just decremented `usage` to 0 on a limit of capacity 1 and holds the write
lock, goroutine 1 sleeps in `cond.Wait()`, unnotified. -/
def lassoState : State :=
  { l := { concurrency := 1, usage := 0, readers := 0, writer := true },
    gs := [{ pc := PC.dCheck, held := 0, notified := false, broadcast := false },
           { pc := PC.sWaitPark, held := 0, notified := false, broadcast := false },
           { pc := PC.idle, held := 0, notified := false, broadcast := true }] }

/-- The round `lassoRound`, `m` times over. -/
def lassoRounds : Nat → List Event
  | 0 => []
  | m + 1 => lassoRound ++ lassoRounds m

/-! ## Sums over the goroutines -/

theorem total_nil (f : Goroutine → Nat) : total f [] = 0 := rfl

theorem total_cons (f : Goroutine → Nat) (g : Goroutine) (gs : List Goroutine) :
    total f (g :: gs) = f g + total f gs := by
  simp [total]

theorem total_set (f : Goroutine → Nat) :
    ∀ (gs : List Goroutine) (i : Nat) (g g1 : Goroutine), gs[i]? = some g →
      total f (gs.set i g1) + f g = total f gs + f g1
  | [], i, g, g1, h => by simp at h
  | x :: xs, 0, g, g1, h => by
      simp at h
      subst h
      simp only [List.set_cons_zero, total_cons]
      omega
  | x :: xs, i + 1, g, g1, h => by
      simp at h
      have ih := total_set f xs i g g1 h
      simp only [List.set_cons_succ, total_cons]
      omega

theorem total_wake (f : Goroutine → Nat) (hf : ∀ g, f (wake g) = f g) (gs : List Goroutine) :
    total f (gs.map wake) = total f gs := by
  induction gs with
  | nil => rfl
  | cons x xs ih => simp only [List.map_cons, total_cons, ih, hf]

theorem le_total (f : Goroutine → Nat) :
    ∀ (gs : List Goroutine) (i : Nat) (g : Goroutine), gs[i]? = some g → f g ≤ total f gs
  | [], i, g, h => by simp at h
  | x :: xs, 0, g, h => by
      simp at h
      subst h
      simp only [total_cons]
      omega
  | x :: xs, i + 1, g, h => by
      simp at h
      have ih := le_total f xs i g h
      simp only [total_cons]
      omega

theorem two_le_total (f : Goroutine → Nat) :
    ∀ (gs : List Goroutine) (i j : Nat) (a b : Goroutine), i ≠ j →
      gs[i]? = some a → gs[j]? = some b → f a + f b ≤ total f gs
  | [], i, j, a, b, _, h, _ => by simp at h
  | x :: xs, 0, 0, a, b, hij, _, _ => absurd rfl hij
  | x :: xs, 0, j + 1, a, b, _, ha, hb => by
      simp at ha hb
      subst ha
      have := le_total f xs j b hb
      simp only [total_cons]
      omega
  | x :: xs, i + 1, 0, a, b, _, ha, hb => by
      simp at ha hb
      subst hb
      have := le_total f xs i a ha
      simp only [total_cons]
      omega
  | x :: xs, i + 1, j + 1, a, b, hij, ha, hb => by
      simp at ha hb
      have := two_le_total f xs i j a b (by omega) ha hb
      simp only [total_cons]
      omega

theorem total_replicate_zero (f : Goroutine → Nat) (g : Goroutine) (h : f g = 0) (n : Nat) :
    total f (List.replicate n g) = 0 := by
  induction n with
  | zero => rfl
  | succ n ih => simp only [List.replicate_succ, total_cons, ih, h]

/-! ## Shape of a step -/

theorem step_run {s s1 : State} {i : Nat} (h : step s (Event.run i) = some s1) :
    ∃ g l1 g1 b, s.gs[i]? = some g ∧ stepG s.l g = some (l1, g1, b) ∧
      s1 = { l := l1, gs := if b then (s.gs.set i g1).map wake else s.gs.set i g1 } := by
  unfold step at h
  cases hg : s.gs[i]? with
  | none => simp [hg] at h
  | some g =>
      simp only [hg] at h
      cases hs : stepG s.l g with
      | none => simp [hs] at h
      | some r =>
          obtain ⟨l1, g1, b⟩ := r
          simp only [hs, Option.some.injEq] at h
          exact ⟨g, l1, g1, b, rfl, hs, h.symm⟩

theorem step_callStart {s s1 : State} {i : Nat} (h : step s (Event.callStart i) = some s1) :
    ∃ g, s.gs[i]? = some g ∧ g.pc = PC.idle ∧
      s1 = { s with gs := s.gs.set i ({ g with pc := PC.sRLock }) } := by
  unfold step at h
  cases hg : s.gs[i]? with
  | none => simp [hg] at h
  | some g =>
      simp only [hg] at h
      by_cases hp : g.pc = PC.idle
      · simp only [hp, if_true, Option.some.injEq] at h
        exact ⟨g, rfl, hp, h.symm⟩
      · simp [hp] at h

theorem step_callDone {s s1 : State} {i : Nat} (h : step s (Event.callDone i) = some s1) :
    ∃ g, s.gs[i]? = some g ∧ g.pc = PC.idle ∧
      s1 = { s with
        gs := s.gs.set i ({ g with pc := PC.dLock, held := g.held - 1, broadcast := false }) } := by
  unfold step at h
  cases hg : s.gs[i]? with
  | none => simp [hg] at h
  | some g =>
      simp only [hg] at h
      by_cases hp : g.pc = PC.idle
      · simp only [hp, if_true, Option.some.injEq] at h
        exact ⟨g, rfl, hp, h.symm⟩
      · simp [hp] at h

theorem total_after (f : Goroutine → Nat) (hf : ∀ g, f (wake g) = f g)
    (gs : List Goroutine) (i : Nat) (g g1 : Goroutine) (b : Bool) (hg : gs[i]? = some g) :
    total f (if b then (gs.set i g1).map wake else gs.set i g1) + f g = total f gs + f g1 := by
  cases b with
  | false => simpa using total_set f gs i g g1 hg
  | true =>
      simp only [if_true]
      rw [total_wake f hf]
      exact total_set f gs i g g1 hg

theorem rd_wake (g : Goroutine) : rd (wake g) = rd g := by
  obtain ⟨pc, held, nt, bc⟩ := g
  cases pc <;> rfl

theorem wr_wake (g : Goroutine) : wr (wake g) = wr g := by
  obtain ⟨pc, held, nt, bc⟩ := g
  cases pc <;> rfl

/-! ## The lock invariant -/

theorem stepG_lock {l l1 : Limit} {g g1 : Goroutine} {b : Bool}
    (h : stepG l g = some (l1, g1, b)) (hr : rd g ≤ l.readers) (hw : wr g ≤ wnum l)
    (hx : l.writer = true → l.readers = 0) :
    l1.readers + rd g = l.readers + rd g1 ∧ wnum l1 + wr g = wnum l + wr g1 ∧
      (l1.writer = true → l1.readers = 0) := by
  obtain ⟨pc, held, nt, bc⟩ := g
  obtain ⟨c, u, r, w⟩ := l
  cases pc <;> cases w <;> simp [stepG] at h <;> (try split at h) <;> (try simp at h) <;>
    casesm* _ ∧ _ <;> subst_vars <;> simp [rd, wr, wnum, addOne, addMax] at * <;> omega

theorem LockInv_init (c n : Nat) : LockInv (init c n) := by
  refine ⟨?_, ?_, ?_⟩
  · exact total_replicate_zero rd fresh rfl n
  · exact total_replicate_zero wr fresh rfl n
  · intro h; rfl

theorem LockInv_step {s s1 : State} {e : Event} (h : step s e = some s1) (hi : LockInv s) :
    LockInv s1 := by
  obtain ⟨h1, h2, h3⟩ := hi
  cases e with
  | callStart i =>
      obtain ⟨g, hg, hp, rfl⟩ := step_callStart h
      have a := total_set rd s.gs i g { g with pc := PC.sRLock } hg
      have b := total_set wr s.gs i g { g with pc := PC.sRLock } hg
      have c1 : rd g = 0 := by simp [rd, hp]
      have c2 : wr g = 0 := by simp [wr, hp]
      have e1 : ∀ h n b, rd { pc := PC.sRLock, held := h, notified := n, broadcast := b } = 0 :=
        fun _ _ _ => rfl
      have e2 : ∀ h n b, wr { pc := PC.sRLock, held := h, notified := n, broadcast := b } = 0 :=
        fun _ _ _ => rfl
      rw [c1, e1] at a
      rw [c2, e2] at b
      refine ⟨?_, ?_, h3⟩
      · simp only; rw [← h1]; omega
      · simp only; rw [← h2]; omega
  | callDone i =>
      obtain ⟨g, hg, hp, rfl⟩ := step_callDone h
      have a := total_set rd s.gs i g
        { g with pc := PC.dLock, held := g.held - 1, broadcast := false } hg
      have b := total_set wr s.gs i g
        { g with pc := PC.dLock, held := g.held - 1, broadcast := false } hg
      have c1 : rd g = 0 := by simp [rd, hp]
      have c2 : wr g = 0 := by simp [wr, hp]
      have e1 : ∀ h n b, rd { pc := PC.dLock, held := h, notified := n, broadcast := b } = 0 :=
        fun _ _ _ => rfl
      have e2 : ∀ h n b, wr { pc := PC.dLock, held := h, notified := n, broadcast := b } = 0 :=
        fun _ _ _ => rfl
      rw [c1, e1] at a
      rw [c2, e2] at b
      refine ⟨?_, ?_, h3⟩
      · simp only; rw [← h1]; omega
      · simp only; rw [← h2]; omega
  | run i =>
      obtain ⟨g, l1, g1, b, hg, hs, rfl⟩ := step_run h
      have hr := le_total rd s.gs i g hg
      have hw := le_total wr s.gs i g hg
      obtain ⟨a1, a2, a3⟩ := stepG_lock hs (h1 ▸ hr) (h2 ▸ hw) h3
      have b1 := total_after rd rd_wake s.gs i g g1 b hg
      have b2 := total_after wr wr_wake s.gs i g g1 b hg
      exact ⟨by simp only; omega, by simp only; omega, a3⟩

/-! ## Runs, and the invariant of usage under the calling contract -/

theorem exec_induct (P : State → Prop)
    (hstep : ∀ (s : State) (e : Event) (s1 : State), P s → step s e = some s1 → P s1) :
    ∀ (es : List Event) (s s1 : State), exec s es = some s1 → P s → P s1
  | [], s, s1, h, hp => by
      simp [exec] at h
      subst h
      exact hp
  | e :: es, s, s1, h, hp => by
      simp only [exec] at h
      cases hs : step s e with
      | none => simp [hs] at h
      | some s2 =>
          simp only [hs] at h
          exact exec_induct P hstep es s2 s1 h (hstep s e s2 hp hs)

theorem exec_keeps_induct (P : State → Prop)
    (hstep : ∀ (s : State) (e : Event) (s1 : State), P s → obeys s e = true →
      step s e = some s1 → P s1) :
    ∀ (es : List Event) (s s1 : State), exec s es = some s1 → keeps s es = true → P s → P s1
  | [], s, s1, h, _, hp => by
      simp [exec] at h
      subst h
      exact hp
  | e :: es, s, s1, h, hk, hp => by
      simp only [exec] at h
      cases hs : step s e with
      | none => simp [hs] at h
      | some s2 =>
          simp only [hs] at h
          simp only [keeps, hs, Bool.and_eq_true] at hk
          exact exec_keeps_induct P hstep es s2 s1 h hk.2 (hstep s e s2 hp hk.1 hs)

theorem total_mono (f k : Goroutine → Nat) (h : ∀ g, f g ≤ k g) (gs : List Goroutine) :
    total f gs ≤ total k gs := by
  induction gs with
  | nil => exact Nat.le_refl _
  | cons x xs ih =>
      simp only [total_cons]
      have := h x
      omega

theorem wake_pc (g : Goroutine) : (wake g).pc = g.pc := by
  unfold wake
  split <;> rfl

theorem wake_held (g : Goroutine) : (wake g).held = g.held := by
  unfold wake
  split <;> rfl

theorem share_wake (g : Goroutine) : share (wake g) = share g := by
  simp only [share, wake_pc, wake_held]

/-- Lookup in the goroutine list after goroutine `i` has been replaced. -/
theorem get_set {gs : List Goroutine} {i j : Nat} {g1 x : Goroutine}
    (h : (gs.set i g1)[j]? = some x) : (j = i ∧ x = g1) ∨ (j ≠ i ∧ gs[j]? = some x) := by
  by_cases hji : j = i
  · subst hji
    rw [List.getElem?_set] at h
    simp at h
    exact Or.inl ⟨rfl, h.2.symm⟩
  · rw [List.getElem?_set_ne (Ne.symm hji)] at h
    exact Or.inr ⟨hji, h⟩

/-- Lookup in the goroutine list after goroutine `i` has moved to `g1`. -/
theorem get_after {gs : List Goroutine} {i j : Nat} {g1 x : Goroutine} {b : Bool}
    (h : (if b then (gs.set i g1).map wake else gs.set i g1)[j]? = some x) :
    ∃ y, x = (if b then wake y else y) ∧ ((j = i ∧ y = g1) ∨ (j ≠ i ∧ gs[j]? = some y)) := by
  cases b with
  | false =>
      simp only [Bool.false_eq_true, if_false] at h
      exact ⟨x, by simp, get_set h⟩
  | true =>
      simp only [if_true, List.getElem?_map, Option.map_eq_some'] at h
      obtain ⟨y, hy, rfl⟩ := h
      exact ⟨y, by simp, get_set hy⟩

theorem after_pc (b : Bool) (y : Goroutine) : (if b then wake y else y).pc = y.pc := by
  cases b <;> simp [wake_pc]

theorem after_held (b : Bool) (y : Goroutine) : (if b then wake y else y).held = y.held := by
  cases b <;> simp [wake_held]

theorem stepG_use {l l1 : Limit} {g g1 : Goroutine} {b : Bool}
    (h : stepG l g = some (l1, g1, b)) (hc : l.concurrency < wrap) (hpos : 0 < l.concurrency)
    (ha : g.pc = PC.sAdd → l.usage < l.concurrency) (hd : share g ≤ l.usage)
    (hle : l.usage ≤ l.concurrency) :
    l1.concurrency = l.concurrency ∧ l1.usage + share g = l.usage + share g1 ∧
      l1.usage ≤ l.concurrency ∧ (g1.pc = PC.sAdd → l1.usage < l.concurrency) ∧
      (wr g = 0 → l1.usage = l.usage) := by
  obtain ⟨pc, held, nt, bc⟩ := g
  obtain ⟨c, u, r, w⟩ := l
  cases pc <;> cases w <;> simp [stepG] at h <;> (try split at h) <;> (try simp at h) <;>
    casesm* _ ∧ _ <;> subst_vars <;>
    simp [share, wr, wrap, addOne, addMax, available] at * <;> omega

theorem wnum_le (l : Limit) : wnum l ≤ 1 := by
  unfold wnum
  split <;> omega

theorem UseInv_init (c n : Nat) : UseInv c (init c n) := by
  refine ⟨LockInv_init c n, rfl, ?_, Nat.zero_le _, ?_⟩
  · exact (total_replicate_zero share fresh rfl n).symm
  · intro j g hg hp
    simp only [init, List.getElem?_replicate] at hg
    split at hg
    · simp at hg
      subst hg
      simp [fresh] at hp
    · simp at hg

theorem UseInv_step {c : Nat} (hc0 : 0 < c) (hc : c < wrap) (s : State) (e : Event) (s1 : State)
    (hi : UseInv c s) (ho : obeys s e = true) (h : step s e = some s1) : UseInv c s1 := by
  obtain ⟨hL, hcc, hu, hle, hadd⟩ := hi
  have hL1 := LockInv_step h hL
  cases e with
  | callStart i =>
      obtain ⟨g, hg, hp, rfl⟩ := step_callStart h
      have a := total_set share s.gs i g { g with pc := PC.sRLock } hg
      have c1 : share g = g.held := by simp [share, hp]
      have c2 : share { g with pc := PC.sRLock } = g.held := by simp [share]
      rw [c1, c2] at a
      refine ⟨hL1, hcc, ?_, hle, ?_⟩
      · simp only; omega
      · intro j x hx hpx
        rcases get_set hx with ⟨_, rfl⟩ | ⟨_, hy⟩
        · simp at hpx
        · exact hadd j x hy hpx
  | callDone i =>
      obtain ⟨g, hg, hp, rfl⟩ := step_callDone h
      have hh : 0 < g.held := by simpa [obeys, hg] using ho
      have a := total_set share s.gs i g
        { g with pc := PC.dLock, held := g.held - 1, broadcast := false } hg
      have c1 : share g = g.held := by simp [share, hp]
      have c2 : share { g with pc := PC.dLock, held := g.held - 1, broadcast := false }
          = g.held - 1 + 1 := by simp [share]
      rw [c1, c2] at a
      refine ⟨hL1, hcc, ?_, hle, ?_⟩
      · simp only; omega
      · intro j x hx hpx
        rcases get_set hx with ⟨_, rfl⟩ | ⟨_, hy⟩
        · simp at hpx
        · exact hadd j x hy hpx
  | run i =>
      obtain ⟨g, l1, g1, b, hg, hs, rfl⟩ := step_run h
      have hsh := le_total share s.gs i g hg
      obtain ⟨a1, a2, a3, a4, a5⟩ := stepG_use hs (hcc ▸ hc) (hcc ▸ hc0)
        (fun hp => hcc ▸ hadd i g hg hp) (hu ▸ hsh) (hcc ▸ hle)
      have b1 := total_after share share_wake s.gs i g g1 b hg
      refine ⟨hL1, a1.trans hcc, ?_, hcc ▸ a3, ?_⟩
      · simp only; omega
      · intro j x hx hpx
        simp only at hx
        obtain ⟨y, rfl, hy⟩ := get_after hx
        rw [after_pc] at hpx
        rcases hy with ⟨_, rfl⟩ | ⟨hji, hy⟩
        · exact hcc ▸ a4 hpx
        · have hwy : wr y = 1 := by simp [wr, hpx]
          have h2 := two_le_total wr s.gs j i y g hji hy hg
          have h3 := wnum_le s.l
          have h4 : wr g = 0 := by
            have := hL.2.1
            omega
          simp only
          rw [a5 h4]
          exact hadd j y hy hpx

/-! ## One goroutine running alone -/

theorem set_self : ∀ (gs : List Goroutine) (i : Nat) (g : Goroutine), gs[i]? = some g →
    gs.set i g = gs
  | [], i, g, h => by simp at h
  | x :: xs, 0, g, h => by
      simp at h
      subst h
      rfl
  | x :: xs, i + 1, g, h => by
      simp at h
      simp only [List.set_cons_succ, set_self xs i g h]

theorem get_set_self {gs : List Goroutine} {i : Nat} (g : Goroutine) (hi : i < gs.length) :
    (gs.set i g)[i]? = some g := by
  rw [List.getElem?_set]
  simp [hi]

theorem exec_append : ∀ (a b : List Event) (s : State),
    exec s (a ++ b) = (exec s a).bind (fun s1 => exec s1 b)
  | [], b, s => by simp [exec]
  | e :: a, b, s => by
      simp only [List.cons_append, exec]
      cases step s e with
      | none => rfl
      | some s1 => exact exec_append a b s1

theorem step_run_set (l l1 : Limit) (g g1 : Goroutine) (b : Bool) {gs : List Goroutine}
    {i : Nat} (hi : i < gs.length) (h : stepG l g = some (l1, g1, b)) :
    step { l := l, gs := gs.set i g } (Event.run i) =
      some { l := l1, gs := if b then (gs.set i g1).map wake else gs.set i g1 } := by
  simp only [step, get_set_self g hi, h, List.set_set]

theorem exec_solo : ∀ (k : Nat) (l l1 : Limit) (g g1 : Goroutine) (gs : List Goroutine)
    (i : Nat), i < gs.length → soloG k l g = some (l1, g1) →
    exec { l := l, gs := gs.set i g } (List.replicate k (Event.run i)) =
      some { l := l1, gs := gs.set i g1 }
  | 0, l, l1, g, g1, gs, i, _, h => by
      simp only [soloG, Option.some.injEq, Prod.mk.injEq] at h
      obtain ⟨rfl, rfl⟩ := h
      rfl
  | k + 1, l, l1, g, g1, gs, i, hi, h => by
      simp only [soloG] at h
      cases hs : stepG l g with
      | none => simp [hs] at h
      | some r =>
          obtain ⟨l2, g2, b⟩ := r
          cases b with
          | true => simp [hs] at h
          | false =>
              simp only [hs] at h
              simp only [List.replicate_succ, exec, step_run_set l l2 g g2 false hi hs]
              exact exec_solo k l2 l1 g2 g1 gs i hi h

/-- A whole `Start` call by an idle goroutine on a free lock, when the limit
is available. -/
theorem exec_soloStart (s : State) (i : Nat) (g : Goroutine) (hg : s.gs[i]? = some g)
    (hp : g.pc = PC.idle) (hw : s.l.writer = false) (hr : s.l.readers = 0)
    (ha : available s.l = true) :
    exec s (soloStart i) =
      some { l := addOne s.l, gs := s.gs.set i { g with held := g.held + 1 } } := by
  have hi : i < s.gs.length := by
    rcases Nat.lt_or_ge i s.gs.length with h | h
    · exact h
    · rw [List.getElem?_eq_none h] at hg
      simp at hg
  obtain ⟨l, gs⟩ := s
  obtain ⟨c, u, r, w⟩ := l
  obtain ⟨pc, held, nt, bc⟩ := g
  simp only at hg hp hw hr ha hi
  subst hp hw hr
  have h7 : soloG 7 { concurrency := c, usage := u, readers := 0, writer := false }
      { pc := PC.sRLock, held := held, notified := nt, broadcast := bc } =
      some (addOne { concurrency := c, usage := u, readers := 0, writer := false },
        { pc := PC.idle, held := held + 1, notified := nt, broadcast := bc }) := by
    have ha1 : available { concurrency := c, usage := u, readers := 1, writer := false } = true := by
      simpa [available] using ha
    have ha2 : available { concurrency := c, usage := u, readers := 0, writer := true } = true := by
      simpa [available] using ha
    simp [soloG, stepG, ha1, ha2, addOne]
  simp only [soloStart, exec, step, hg, if_true]
  exact exec_solo 7 _ _ _ _ gs i hi h7

theorem lt_of_get {gs : List Goroutine} {i : Nat} {g : Goroutine} (hg : gs[i]? = some g) :
    i < gs.length := by
  rcases Nat.lt_or_ge i gs.length with h | h
  · exact h
  · rw [List.getElem?_eq_none h] at hg
    simp at hg

theorem exec_solo_at (k : Nat) (s : State) (l1 : Limit) (g g1 : Goroutine) (i : Nat)
    (hg : s.gs[i]? = some g) (h : soloG k s.l g = some (l1, g1)) :
    exec s (List.replicate k (Event.run i)) = some { l := l1, gs := s.gs.set i g1 } := by
  have := exec_solo k s.l l1 g g1 s.gs i (lt_of_get hg) h
  rw [set_self s.gs i g hg] at this
  exact this

theorem available_congr (l k : Limit) (hc : l.concurrency = k.concurrency)
    (hu : l.usage = k.usage) : available l = available k := by
  simp [available, hc, hu]

theorem exec_callStart (s : State) (i : Nat) (g : Goroutine) (es : List Event)
    (hg : s.gs[i]? = some g) (hp : g.pc = PC.idle) :
    exec s (Event.callStart i :: es) =
      exec { l := s.l, gs := s.gs.set i (Goroutine.mk PC.sRLock g.held g.notified g.broadcast) }
        es := by
  simp only [exec, step, hg, hp, if_true]

theorem exec_callDone (s : State) (i : Nat) (g : Goroutine) (es : List Event)
    (hg : s.gs[i]? = some g) (hp : g.pc = PC.idle) :
    exec s (Event.callDone i :: es) =
      exec { l := s.l, gs := s.gs.set i (Goroutine.mk PC.dLock (g.held - 1) g.notified false) }
        es := by
  simp only [exec, step, hg, hp, if_true]

/-- A whole `Done` call by an idle goroutine on a free lock: the usage is
decremented modulo `2^32`; when the limit is available after that, the call
ends with the broadcast, otherwise without. -/
theorem exec_soloDone (s : State) (i : Nat) (g : Goroutine) (hg : s.gs[i]? = some g)
    (hp : g.pc = PC.idle) (hw : s.l.writer = false) (hr : s.l.readers = 0) :
    (available (addMax s.l) = true →
      exec s (soloDone i) = some {
        l := addMax s.l,
        gs := (s.gs.set i { g with held := g.held - 1, broadcast := true }).map wake }) ∧
    (available (addMax s.l) = false →
      exec s (Event.callDone i :: List.replicate 5 (Event.run i)) = some {
        l := addMax s.l,
        gs := s.gs.set i { g with held := g.held - 1, broadcast := false } }) := by
  have hi : i < s.gs.length := lt_of_get hg
  obtain ⟨l, gs⟩ := s
  obtain ⟨c, u, r, w⟩ := l
  obtain ⟨pc, held, nt, bc⟩ := g
  simp only at hg hp hw hr hi ⊢
  subst hp hw hr
  have e1 : ∀ l1 : Limit,
      exec { l := l1, gs := gs.set i (Goroutine.mk PC.dBroadcast (held - 1) nt true) }
        [Event.run i] =
      some { l := l1, gs := (gs.set i (Goroutine.mk PC.idle (held - 1) nt true)).map wake } := by
    intro l1
    simp only [exec]
    rw [step_run_set l1 l1 _ (Goroutine.mk PC.idle (held - 1) nt true) true hi
      (by simp [stepG])]
    simp
  have hsplit : soloDone i =
      Event.callDone i :: (List.replicate 5 (Event.run i) ++ [Event.run i]) := by
    simp [soloDone, List.replicate]
  constructor
  · intro ha
    have ha1 : available (Limit.mk c ((4294967295 + u) % wrap) 0 true) = true := by
      simpa [available, addMax] using ha
    have h5 : soloG 5 (Limit.mk c u 0 false) (Goroutine.mk PC.dLock (held - 1) nt false) =
        some (addMax (Limit.mk c u 0 false), Goroutine.mk PC.dBroadcast (held - 1) nt true) := by
      simp [soloG, stepG, ha1, addMax]
    have e5 := exec_solo 5 _ _ _ _ gs i hi h5
    rw [hsplit, exec_callDone _ i _ _ hg rfl, exec_append]
    simp only
    rw [e5]
    exact e1 _
  · intro ha
    have ha1 : available (Limit.mk c ((4294967295 + u) % wrap) 0 true) = false := by
      simpa [available, addMax] using ha
    have h5 : soloG 5 (Limit.mk c u 0 false) (Goroutine.mk PC.dLock (held - 1) nt false) =
        some (addMax (Limit.mk c u 0 false), Goroutine.mk PC.idle (held - 1) nt false) := by
      simp [soloG, stepG, ha1, addMax]
    rw [exec_callDone _ i _ _ hg rfl]
    exact exec_solo 5 _ _ _ _ gs i hi h5

theorem get_map_wake {gs : List Goroutine} {j : Nat} {x : Goroutine}
    (h : (gs.map wake)[j]? = some x) (hp : x.pc = PC.sWaitUnlock ∨ x.pc = PC.sWaitPark) :
    x.notified = true := by
  simp only [List.getElem?_map, Option.map_eq_some'] at h
  obtain ⟨y, _, rfl⟩ := h
  rw [wake_pc] at hp
  simp [wake, hp]

/-! ## The counters -/

theorem available_iff (l : Limit) :
    available l = true ↔ (l.concurrency = 0 ∨ l.usage < l.concurrency) := by
  unfold available
  split
  · simp [*]
  · split <;> simp [*]

theorem available_false_iff (l : Limit) :
    available l = false ↔ (0 < l.concurrency ∧ l.concurrency ≤ l.usage) := by
  rw [← Bool.not_eq_true, available_iff]
  omega

theorem wrap_eq : wrap = 4294967296 := rfl

theorem addMax_usage (l : Limit) : (addMax l).usage = (4294967295 + l.usage) % wrap := by
  simp only [addMax]

theorem addMax_concurrency (l : Limit) : (addMax l).concurrency = l.concurrency := by
  simp only [addMax]

theorem addOne_usage (l : Limit) : (addOne l).usage = (l.usage + 1) % wrap := by
  simp only [addOne]

theorem addOne_concurrency (l : Limit) : (addOne l).concurrency = l.concurrency := by
  simp only [addOne]

theorem Done_fst (l : Limit) : (Done l).1 = addMax l := by
  simp only [Done]

theorem Done_snd (l : Limit) : (Done l).2 = available (addMax l) := by
  simp only [Done]
  cases available (addMax l) <;> simp

/-! ## Unlimited mode, and a full limit -/

theorem exec_induct_events (Q : Event → Prop) (P : State → Prop)
    (hstep : ∀ (s : State) (e : Event) (s1 : State), Q e → P s → step s e = some s1 → P s1) :
    ∀ (es : List Event) (s s1 : State), (∀ e ∈ es, Q e) → exec s es = some s1 → P s → P s1
  | [], s, s1, _, h, hp => by
      simp [exec] at h
      subst h
      exact hp
  | e :: es, s, s1, hq, h, hp => by
      simp only [exec] at h
      cases hs : step s e with
      | none => simp [hs] at h
      | some s2 =>
          simp only [hs] at h
          exact exec_induct_events Q P hstep es s2 s1
            (fun e1 he1 => hq e1 (List.mem_cons_of_mem e he1)) h
            (hstep s e s2 (hq e (List.mem_cons_self e es)) hp hs)

theorem map_held_set : ∀ (gs : List Goroutine) (i : Nat) (g g1 : Goroutine),
    gs[i]? = some g → g1.held = g.held →
    (gs.set i g1).map (fun x => x.held) = gs.map (fun x => x.held)
  | [], i, g, g1, h, _ => by simp at h
  | x :: xs, 0, g, g1, h, hh => by
      simp at h
      subst h
      simp [hh]
  | x :: xs, i + 1, g, g1, h, hh => by
      simp at h
      simp [map_held_set xs i g g1 h hh]

theorem map_held_wake (gs : List Goroutine) :
    (gs.map wake).map (fun x => x.held) = gs.map (fun x => x.held) := by
  induction gs with
  | nil => rfl
  | cons x xs ih => simp [wake_held, ih]

theorem map_held_after (gs : List Goroutine) (i : Nat) (g g1 : Goroutine) (b : Bool)
    (hg : gs[i]? = some g) (hh : g1.held = g.held) :
    (if b then (gs.set i g1).map wake else gs.set i g1).map (fun x => x.held) =
      gs.map (fun x => x.held) := by
  cases b with
  | false => simpa using map_held_set gs i g g1 hg hh
  | true =>
      simp only [if_true]
      rw [map_held_wake]
      exact map_held_set gs i g g1 hg hh

theorem stepG_unlimited {l l1 : Limit} {g g1 : Goroutine} {b : Bool}
    (h : stepG l g = some (l1, g1, b)) (hc : l.concurrency = 0) (hw : onCond g = false)
    (hr : g.pc ≠ PC.sRetry) :
    l1.concurrency = 0 ∧ onCond g1 = false ∧ g1.pc ≠ PC.sRetry := by
  obtain ⟨pc, held, nt, bc⟩ := g
  obtain ⟨c, u, r, w⟩ := l
  simp only at hc
  subst hc
  cases pc <;> cases w <;> simp [stepG] at h <;> (try split at h) <;> (try simp at h) <;>
    casesm* _ ∧ _ <;> subst_vars <;>
    simp [onCond, addOne, addMax, available] at *

theorem stepG_full {l l1 : Limit} {g g1 : Goroutine} {b : Bool}
    (h : stepG l g = some (l1, g1, b)) (hc : 0 < l.concurrency)
    (hu : l.usage = l.concurrency) (hs : settled g = true) :
    l1.concurrency = l.concurrency ∧ l1.usage = l.usage ∧ settled g1 = true ∧
      g1.held = g.held := by
  obtain ⟨pc, held, nt, bc⟩ := g
  obtain ⟨c, u, r, w⟩ := l
  simp only at hc hu
  subst hu
  cases pc <;> cases w <;> simp [stepG] at h <;> (try split at h) <;> (try simp at h) <;>
    casesm* _ ∧ _ <;> subst_vars <;>
    simp [settled, addOne, addMax, available] at * <;> omega

theorem FreeInv_init (n : Nat) : FreeInv (init 0 n) := by
  refine ⟨rfl, ?_⟩
  intro j g hg
  simp only [init, List.getElem?_replicate] at hg
  split at hg
  · simp at hg
    subst hg
    simp [fresh, onCond]
  · simp at hg

theorem FreeInv_step (s : State) (e : Event) (s1 : State) (hi : FreeInv s)
    (h : step s e = some s1) : FreeInv s1 := by
  obtain ⟨hc, hall⟩ := hi
  cases e with
  | callStart i =>
      obtain ⟨g, hg, hp, rfl⟩ := step_callStart h
      refine ⟨hc, ?_⟩
      intro j x hx
      rcases get_set hx with ⟨_, rfl⟩ | ⟨_, hy⟩
      · simp [onCond]
      · exact hall j x hy
  | callDone i =>
      obtain ⟨g, hg, hp, rfl⟩ := step_callDone h
      refine ⟨hc, ?_⟩
      intro j x hx
      rcases get_set hx with ⟨_, rfl⟩ | ⟨_, hy⟩
      · simp [onCond]
      · exact hall j x hy
  | run i =>
      obtain ⟨g, l1, g1, b, hg, hs, rfl⟩ := step_run h
      obtain ⟨a1, a2, a3⟩ := stepG_unlimited hs hc (hall i g hg).1 (hall i g hg).2
      refine ⟨a1, ?_⟩
      intro j x hx
      simp only at hx
      obtain ⟨y, rfl, hy⟩ := get_after hx
      have e1 : onCond (if b then wake y else y) = onCond y := by
        simp only [onCond, after_pc]
      rw [e1, after_pc]
      rcases hy with ⟨_, rfl⟩ | ⟨_, hy⟩
      · exact ⟨a2, a3⟩
      · exact hall j y hy

theorem FullInv_step (c : Nat) (hc : 0 < c) (hs : List Nat) (s : State) (e : Event)
    (s1 : State) (hq : ∀ i, e ≠ Event.callDone i) (hi : FullInv c hs s)
    (h : step s e = some s1) : FullInv c hs s1 := by
  obtain ⟨h1, h2, h3, h4⟩ := hi
  cases e with
  | callStart i =>
      obtain ⟨g, hg, hp, rfl⟩ := step_callStart h
      refine ⟨h1, h2, ?_, ?_⟩
      · intro j x hx
        rcases get_set hx with ⟨_, rfl⟩ | ⟨_, hy⟩
        · simp [settled]
        · exact h3 j x hy
      · rw [← h4]
        exact map_held_set s.gs i g _ hg rfl
  | callDone i => exact absurd rfl (hq i)
  | run i =>
      obtain ⟨g, l1, g1, b, hg, hst, rfl⟩ := step_run h
      obtain ⟨a1, a2, a3, a4⟩ := stepG_full hst (h1 ▸ hc) (h2.trans h1.symm) (h3 i g hg)
      refine ⟨a1.trans h1, a2.trans h2, ?_, ?_⟩
      · intro j x hx
        simp only at hx
        obtain ⟨y, rfl, hy⟩ := get_after hx
        have e1 : settled (if b then wake y else y) = settled y := by
          simp only [settled, after_pc]
        rw [e1]
        rcases hy with ⟨_, rfl⟩ | ⟨_, hy⟩
        · exact a3
        · exact h3 j y hy
      · rw [← h4]
        exact map_held_after s.gs i g g1 b hg a4

/-! ## Counting calls -/

theorem pendS_wake (g : Goroutine) : pendS (wake g) = pendS g := by
  simp only [pendS, wake_pc]

theorem pendD_wake (g : Goroutine) : pendD (wake g) = pendD g := by
  simp only [pendD, wake_pc]

theorem stepG_count {l l1 : Limit} {g g1 : Goroutine} {b : Bool}
    (h : stepG l g = some (l1, g1, b)) :
    (l1.usage + pendS g1 + pendD g) % 4294967296 = (l.usage + pendS g + pendD g1) % 4294967296 ∧
      (l.usage < 4294967296 → l1.usage < 4294967296) := by
  obtain ⟨pc, held, nt, bc⟩ := g
  obtain ⟨c, u, r, w⟩ := l
  cases pc <;> cases w <;> simp [stepG] at h <;> (try split at h) <;> (try simp at h) <;>
    casesm* _ ∧ _ <;> subst_vars <;>
    simp [pendS, pendD, wrap, addOne, addMax] at * <;> omega

theorem step_count (s : State) (e : Event) (s1 : State) (h : step s e = some s1) :
    (s1.l.usage + total pendS s1.gs + total pendD s.gs + dones [e]) % 4294967296 =
      (s.l.usage + total pendS s.gs + total pendD s1.gs + starts [e]) % 4294967296 ∧
    (s.l.usage < 4294967296 → s1.l.usage < 4294967296) := by
  cases e with
  | callStart i =>
      obtain ⟨g, hg, hp, rfl⟩ := step_callStart h
      have a := total_set pendS s.gs i g { g with pc := PC.sRLock } hg
      have b := total_set pendD s.gs i g { g with pc := PC.sRLock } hg
      have c1 : pendS g = 0 := by simp [pendS, hp]
      have c2 : pendD g = 0 := by simp [pendD, hp]
      have e1 : ∀ h n b, pendS (Goroutine.mk PC.sRLock h n b) = 1 := fun _ _ _ => rfl
      have e2 : ∀ h n b, pendD (Goroutine.mk PC.sRLock h n b) = 0 := fun _ _ _ => rfl
      rw [c1, e1] at a
      rw [c2, e2] at b
      simp only [starts, dones]
      refine ⟨?_, fun h => h⟩
      omega
  | callDone i =>
      obtain ⟨g, hg, hp, rfl⟩ := step_callDone h
      have a := total_set pendS s.gs i g
        { g with pc := PC.dLock, held := g.held - 1, broadcast := false } hg
      have b := total_set pendD s.gs i g
        { g with pc := PC.dLock, held := g.held - 1, broadcast := false } hg
      have c1 : pendS g = 0 := by simp [pendS, hp]
      have c2 : pendD g = 0 := by simp [pendD, hp]
      have e1 : ∀ h n b, pendS (Goroutine.mk PC.dLock h n b) = 0 := fun _ _ _ => rfl
      have e2 : ∀ h n b, pendD (Goroutine.mk PC.dLock h n b) = 1 := fun _ _ _ => rfl
      rw [c1, e1] at a
      rw [c2, e2] at b
      simp only [starts, dones]
      refine ⟨?_, fun h => h⟩
      omega
  | run i =>
      obtain ⟨g, l1, g1, b, hg, hs, rfl⟩ := step_run h
      obtain ⟨a1, a2⟩ := stepG_count hs
      have b1 := total_after pendS pendS_wake s.gs i g g1 b hg
      have b2 := total_after pendD pendD_wake s.gs i g g1 b hg
      simp only [starts, dones]
      refine ⟨?_, a2⟩
      omega

theorem dones_cons (e : Event) (es : List Event) : dones (e :: es) = dones [e] + dones es := by
  cases e <;> simp only [dones] <;> omega

theorem starts_cons (e : Event) (es : List Event) :
    starts (e :: es) = starts [e] + starts es := by
  cases e <;> simp only [starts] <;> omega

theorem exec_count : ∀ (es : List Event) (s s1 : State), exec s es = some s1 →
    (s1.l.usage + total pendS s1.gs + total pendD s.gs + dones es) % 4294967296 =
      (s.l.usage + total pendS s.gs + total pendD s1.gs + starts es) % 4294967296 ∧
    (s.l.usage < 4294967296 → s1.l.usage < 4294967296)
  | [], s, s1, h => by
      simp [exec] at h
      subst h
      exact ⟨rfl, fun h => h⟩
  | e :: es, s, s1, h => by
      simp only [exec] at h
      cases hs : step s e with
      | none => simp [hs] at h
      | some s2 =>
          simp only [hs] at h
          obtain ⟨a1, a2⟩ := step_count s e s2 hs
          obtain ⟨b1, b2⟩ := exec_count es s2 s1 h
          rw [dones_cons, starts_cons]
          exact ⟨by omega, fun h => b2 (a2 h)⟩

theorem total_zero (f : Goroutine → Nat) (gs : List Goroutine) (h : ∀ g ∈ gs, f g = 0) :
    total f gs = 0 := by
  induction gs with
  | nil => rfl
  | cons x xs ih =>
      simp only [total_cons]
      rw [h x (List.mem_cons_self x xs), ih (fun g hg => h g (List.mem_cons_of_mem x hg))]

/-! ## One increment for one returned `Start` -/

theorem get_after_self (gs : List Goroutine) {i : Nat} (g1 : Goroutine) (b : Bool)
    (hi : i < gs.length) :
    (if b then (gs.set i g1).map wake else gs.set i g1)[i]? =
      some (if b then wake g1 else g1) := by
  cases b with
  | false => simpa using get_set_self g1 hi
  | true =>
      simp only [if_true, List.getElem?_map, get_set_self g1 hi, Option.map_some']

theorem get_after_ne (gs : List Goroutine) {i j : Nat} (g g1 : Goroutine) (b : Bool)
    (hji : j ≠ i) (hg : gs[i]? = some g) :
    (if b then (gs.set j g1).map wake else gs.set j g1)[i]? =
      some (if b then wake g else g) := by
  cases b with
  | false =>
      simp only [Bool.false_eq_true, if_false]
      rw [List.getElem?_set_ne hji, hg]
  | true =>
      simp only [if_true, List.getElem?_map]
      rw [List.getElem?_set_ne hji, hg]
      rfl

/-- How a statement of `Start` moves the goroutine towards the return. -/
theorem stepG_phase {l l1 : Limit} {g g1 : Goroutine} {b : Bool}
    (h : stepG l g = some (l1, g1, b)) :
    (pendS g = 1 → g1.held = g.held ∧
      ((g.pc ≠ PC.sAdd ∧ pendS g1 = 1) ∨ (g.pc = PC.sAdd ∧ g1.pc = PC.sUnlock))) ∧
    (g.pc = PC.sUnlock → g1.pc = PC.idle ∧ g1.held = g.held + 1) := by
  obtain ⟨pc, held, nt, bc⟩ := g
  obtain ⟨c, u, r, w⟩ := l
  cases pc <;> cases w <;> simp [stepG] at h <;> (try split at h) <;> (try simp at h) <;>
    casesm* _ ∧ _ <;> subst_vars <;>
    simp [pendS] at *

theorem Phase_after (b : Bool) (g g1 : Goroutine) (k : Nat)
    (h : Phase (if b then wake g else g) g1 k) : Phase g g1 k := by
  have e1 : pendS (if b then wake g else g) = pendS g := by
    simp only [pendS, after_pc]
  simpa only [Phase, e1, after_pc, after_held] using h

theorem incs_phase (i : Nat) : ∀ (es : List Event) (s s1 : State) (g g1 : Goroutine),
    exec s es = some s1 → (∀ e ∈ es, e ≠ Event.callStart i ∧ e ≠ Event.callDone i) →
    s.gs[i]? = some g → s1.gs[i]? = some g1 → g1.pc = PC.idle →
    Phase g g1 (incs i s es)
  | [], s, s1, g, g1, h, _, hg, hg1, hp => by
      simp [exec] at h
      subst h
      rw [hg] at hg1
      simp only [Option.some.injEq] at hg1
      subst hg1
      refine ⟨fun h => ?_, fun h => ?_, fun _ => ⟨rfl, rfl⟩⟩
      · simp [pendS, hp] at h
      · simp [hp] at h
  | e :: es, s, s1, g, g1, h, hq, hg, hg1, hp => by
      simp only [exec] at h
      cases hs : step s e with
      | none => simp [hs] at h
      | some s2 =>
          simp only [hs] at h
          have hq1 : ∀ e1 ∈ es, e1 ≠ Event.callStart i ∧ e1 ≠ Event.callDone i :=
            fun e1 he1 => hq e1 (List.mem_cons_of_mem e he1)
          have hqe := hq e (List.mem_cons_self e es)
          have ih := fun g2 (hg2 : s2.gs[i]? = some g2) =>
            incs_phase i es s2 s1 g2 g1 h hq1 hg2 hg1 hp
          simp only [incs, hs, hg, Option.map_some']
          cases e with
          | callStart j =>
              obtain ⟨gj, hgj, _, rfl⟩ := step_callStart hs
              have hji : j ≠ i := fun h => hqe.1 (by rw [h])
              have hg2 : (s.gs.set j { gj with pc := PC.sRLock })[i]? = some g := by
                rw [List.getElem?_set_ne hji, hg]
              simpa using ih g hg2
          | callDone j =>
              obtain ⟨gj, hgj, _, rfl⟩ := step_callDone hs
              have hji : j ≠ i := fun h => hqe.2 (by rw [h])
              have hg2 : (s.gs.set j
                  { gj with pc := PC.dLock, held := gj.held - 1, broadcast := false })[i]?
                  = some g := by
                rw [List.getElem?_set_ne hji, hg]
              simpa using ih g hg2
          | run j =>
              obtain ⟨gj, l1, g2, b, hgj, hst, rfl⟩ := step_run hs
              by_cases hji : j = i
              · subst hji
                rw [hg] at hgj
                simp only [Option.some.injEq] at hgj
                subst hgj
                have hg2 := get_after_self s.gs g2 b (lt_of_get hg)
                have ih2 := Phase_after b g2 g1 _ (ih _ hg2)
                obtain ⟨p1, p2⟩ := stepG_phase hst
                obtain ⟨q1, q2, q3⟩ := ih2
                simp only [true_and, Option.some.injEq]
                refine ⟨fun h => ?_, fun h => ?_, fun h => ?_⟩
                · obtain ⟨hh, hcase⟩ := p1 h
                  rcases hcase with ⟨hne, hpre⟩ | ⟨heq, hun⟩
                  · have := q1 hpre
                    simp only [hne, if_false]
                    omega
                  · have := q2 hun
                    simp only [heq, if_true]
                    omega
                · obtain ⟨hi1, hi2⟩ := p2 h
                  have := q3 hi1
                  have hne : ¬ (g.pc = PC.sAdd) := by simp [h]
                  simp only [hne, if_false]
                  omega
                · simp [stepG, h] at hst
              · have hg2 := get_after_ne s.gs g g2 b hji hg
                have ih2 := Phase_after b g g1 _ (ih _ hg2)
                have hne : ¬ (Event.run j = Event.run i ∧ some g.pc = some PC.sAdd) := by
                  intro h
                  exact hji (by simpa using h.1)
                simpa only [hne, if_false, Nat.zero_add] using ih2

/-! ## Going to sleep and waking up -/

/-- A `Start` call by an idle goroutine when the limit is not available: it
registers on the condition variable, releases the read lock and sleeps. -/
theorem exec_park (s : State) (j : Nat) (g : Goroutine) (hg : s.gs[j]? = some g)
    (hp : g.pc = PC.idle) (hw : s.l.writer = false) (ha : available s.l = false) :
    exec s (Event.callStart j :: List.replicate 4 (Event.run j)) =
      some { l := s.l, gs := s.gs.set j { g with pc := PC.sWaitPark, notified := false } } ∧
    step { l := s.l, gs := s.gs.set j { g with pc := PC.sWaitPark, notified := false } }
      (Event.run j) = none := by
  have hi : j < s.gs.length := lt_of_get hg
  obtain ⟨l, gs⟩ := s
  obtain ⟨c, u, r, w⟩ := l
  obtain ⟨pc, held, nt, bc⟩ := g
  simp only at hg hp hw ha hi ⊢
  subst hp hw
  have ha1 : available (Limit.mk c u (r + 1) false) = false := by
    rw [← ha]
    exact available_congr _ _ rfl rfl
  have h4 : soloG 4 (Limit.mk c u r false) (Goroutine.mk PC.sRLock held nt bc) =
      some (Limit.mk c u r false, Goroutine.mk PC.sWaitPark held false bc) := by
    simp [soloG, stepG, ha1]
  constructor
  · rw [exec_callStart _ j _ _ hg rfl]
    exact exec_solo 4 _ _ _ _ gs j hi h4
  · simp only [step, get_set_self _ hi, stepG]
    simp

/-- A goroutine that sleeps in `cond.Wait()` and has been notified, on a free
lock with the limit available: it wakes up, passes both checks, increments
and returns. -/
theorem exec_wake (s : State) (j : Nat) (g : Goroutine) (hg : s.gs[j]? = some g)
    (hp : g.pc = PC.sWaitPark) (hn : g.notified = true) (hw : s.l.writer = false)
    (hr : s.l.readers = 0) (ha : available s.l = true) :
    exec s (List.replicate 8 (Event.run j)) =
      some { l := addOne s.l,
             gs := s.gs.set j { g with pc := PC.idle, held := g.held + 1, notified := false } } := by
  obtain ⟨pc, held, nt, bc⟩ := g
  simp only at hp hn
  subst hp hn
  have hl : s.l = Limit.mk s.l.concurrency s.l.usage 0 false := by
    obtain ⟨l, gs⟩ := s
    obtain ⟨c, u, r, w⟩ := l
    simp only at hw hr
    subst hw hr
    rfl
  have ha1 : available (Limit.mk s.l.concurrency s.l.usage 1 false) = true := by
    rw [← ha]
    exact available_congr _ _ rfl rfl
  have ha2 : available (Limit.mk s.l.concurrency s.l.usage 0 true) = true := by
    rw [← ha]
    exact available_congr _ _ rfl rfl
  have h8 : soloG 8 s.l (Goroutine.mk PC.sWaitPark held true bc) =
      some (addOne s.l, Goroutine.mk PC.idle (held + 1) false bc) := by
    rw [hl]
    simp [soloG, stepG, ha1, ha2, addOne]
  exact exec_solo_at 8 s _ _ _ j hg h8

/-- The two checks of a `Start` call that does not have to wait. -/
theorem exec_soloStart_checks (s : State) (i : Nat) (g : Goroutine) (hg : s.gs[i]? = some g)
    (hp : g.pc = PC.idle) (hw : s.l.writer = false) (hr : s.l.readers = 0)
    (ha : available s.l = true) :
    exec s ((soloStart i).take 3) =
      some { l := { s.l with readers := 1 }, gs := s.gs.set i { g with pc := PC.sRUnlock } } ∧
    exec s ((soloStart i).take 6) =
      some { l := { s.l with writer := true }, gs := s.gs.set i { g with pc := PC.sAdd } } := by
  have hi : i < s.gs.length := lt_of_get hg
  obtain ⟨l, gs⟩ := s
  obtain ⟨c, u, r, w⟩ := l
  obtain ⟨pc, held, nt, bc⟩ := g
  simp only at hg hp hw hr ha hi ⊢
  subst hp hw hr
  have ha1 : available (Limit.mk c u 1 false) = true := by
    rw [← ha]
    exact available_congr _ _ rfl rfl
  have ha2 : available (Limit.mk c u 0 true) = true := by
    rw [← ha]
    exact available_congr _ _ rfl rfl
  have h2 : soloG 2 (Limit.mk c u 0 false) (Goroutine.mk PC.sRLock held nt bc) =
      some (Limit.mk c u 1 false, Goroutine.mk PC.sRUnlock held nt bc) := by
    simp [soloG, stepG, ha1]
  have h5 : soloG 5 (Limit.mk c u 0 false) (Goroutine.mk PC.sRLock held nt bc) =
      some (Limit.mk c u 0 true, Goroutine.mk PC.sAdd held nt bc) := by
    simp [soloG, stepG, ha1, ha2]
  have t3 : (soloStart i).take 3 = Event.callStart i :: List.replicate 2 (Event.run i) := rfl
  have t6 : (soloStart i).take 6 = Event.callStart i :: List.replicate 5 (Event.run i) := rfl
  constructor
  · rw [t3, exec_callStart _ i _ _ hg rfl]
    exact exec_solo 2 _ _ _ _ gs i hi h2
  · rw [t6, exec_callStart _ i _ _ hg rfl]
    exact exec_solo 5 _ _ _ _ gs i hi h5

theorem Lined_init (N n : Nat) (f : Nat → Nat) : Lined N n f 0 (init N n) := by
  refine ⟨rfl, by simp [init], ?_, fun h => absurd h (Nat.lt_irrefl 0)⟩
  intro g hg
  simp only [init, List.mem_replicate] at hg
  rw [hg.2]
  rfl

theorem Lined_step (N n : Nat) (f : Nat → Nat) (hN : N < wrap) (hf : ∀ k, f k < n) (k : Nat)
    (hk : k < N) (s : State) (h : Lined N n f k s) :
    ∃ g, s.gs[f k]? = some g ∧ g.pc = PC.idle ∧ s.l.writer = false ∧ s.l.readers = 0 ∧
      available s.l = true ∧ s.l.usage = k ∧
      Lined N n f (k + 1)
        { l := addOne s.l, gs := s.gs.set (f k) { g with held := g.held + 1 } } := by
  obtain ⟨h1, h2, h3, h4⟩ := h
  have hi : f k < s.gs.length := h2 ▸ hf k
  have hg : s.gs[f k]? = some (s.gs[f k]) := List.getElem?_eq_getElem hi
  have hp : (s.gs[f k]).pc = PC.idle := h3 _ (List.getElem?_mem hg)
  refine ⟨s.gs[f k], hg, hp, by rw [h1], by rw [h1], ?_, by rw [h1], ?_, ?_, ?_, ?_⟩
  · rw [available_iff, h1]
    exact Or.inr hk
  · rw [h1]
    have : (k + 1) % wrap = k + 1 := Nat.mod_eq_of_lt (by omega)
    simp only [addOne, this]
  · simp only [List.length_set]
    exact h2
  · intro g hgm
    rcases List.mem_or_eq_of_mem_set hgm with h | h
    · exact h3 g h
    · rw [h]
      exact hp
  · intro _
    by_cases hz : f 0 = f k
    · refine ⟨{ s.gs[f k] with held := (s.gs[f k]).held + 1 }, ?_, Nat.succ_pos _⟩
      simp only
      rw [hz]
      exact get_set_self _ hi
    · by_cases hk0 : 0 < k
      · obtain ⟨g0, hg0, hh⟩ := h4 hk0
        refine ⟨g0, ?_, hh⟩
        simp only
        rw [List.getElem?_set_ne (Ne.symm hz)]
        exact hg0
      · have : k = 0 := by omega
        subst this
        exact absurd rfl hz

theorem seq_exec (N n : Nat) (f : Nat → Nat) (hN : N < wrap) (hf : ∀ k, f k < n) :
    ∀ k, k ≤ N → ∃ s, exec (init N n) (seqStarts f k) = some s ∧ Lined N n f k s
  | 0, _ => ⟨init N n, rfl, Lined_init N n f⟩
  | k + 1, hk => by
      obtain ⟨s, he, hl⟩ := seq_exec N n f hN hf k (by omega)
      obtain ⟨g, hg, hp, hw, hr, ha, _, hl1⟩ := Lined_step N n f hN hf k (by omega) s hl
      refine ⟨_, ?_, hl1⟩
      simp only [seqStarts]
      rw [exec_append, he]
      exact exec_soloStart s (f k) g hg hp hw hr ha

theorem admission_first (N n : Nat) (hN : N < wrap) (f : Nat → Nat) (hf : ∀ k, f k < n)
    (k : Nat) (hk : k < N) :
    ∃ s m1 m2 s1 g1 g2,
      exec (init N n) (seqStarts f k) = some s ∧ Quiet s ∧ s.l.usage = k ∧
      available s.l = true ∧
      exec s ((soloStart (f k)).take 3) = some m1 ∧ m1.gs[f k]? = some g1 ∧
      g1.pc = PC.sRUnlock ∧
      exec s ((soloStart (f k)).take 6) = some m2 ∧ m2.gs[f k]? = some g2 ∧
      g2.pc = PC.sAdd ∧ available m2.l = true ∧
      exec s (soloStart (f k)) = some s1 ∧ s1.l.usage = k + 1 ∧
      exec (init N n) (seqStarts f (k + 1)) = some s1 := by
  obtain ⟨s, he, hl⟩ := seq_exec N n f hN hf k (by omega)
  obtain ⟨g, hg, hp, hw, hr, ha, hu, hl1⟩ := Lined_step N n f hN hf k hk s hl
  obtain ⟨c3, c6⟩ := exec_soloStart_checks s (f k) g hg hp hw hr ha
  have e8 := exec_soloStart s (f k) g hg hp hw hr ha
  have hi := lt_of_get hg
  refine ⟨s, _, _, _, _, _, he, ⟨hw, hr, hl.2.2.1⟩, hu, ha, c3, get_set_self _ hi, rfl, c6,
    get_set_self _ hi, rfl, ?_, e8, ?_, ?_⟩
  · rw [← ha]
    exact available_congr _ _ rfl rfl
  · rw [hl1.1]
  · simp only [seqStarts]
    rw [exec_append, he]
    exact e8

theorem addMax_writer (l : Limit) : (addMax l).writer = l.writer := by
  simp only [addMax]

theorem addMax_readers (l : Limit) : (addMax l).readers = l.readers := by
  simp only [addMax]

theorem wake_parked (g : Goroutine) (hp : g.pc = PC.sWaitPark) :
    wake g = { g with notified := true } := by
  simp [wake, hp]

theorem admission_last (N n : Nat) (hN0 : 0 < N) (hN : N < wrap) (f : Nat → Nat)
    (hf : ∀ k, f k < n) (j : Nat) (hj : j < n) (hjf : j ≠ f 0) :
    ∃ sN sP sD sF gj g0,
      exec (init N n) (seqStarts f N) = some sN ∧ sN.l.usage = N ∧ available sN.l = false ∧
      exec sN (Event.callStart j :: List.replicate 4 (Event.run j)) = some sP ∧
      sP.gs[j]? = some gj ∧ gj.pc = PC.sWaitPark ∧ gj.notified = false ∧
      step sP (Event.run j) = none ∧ sP.l.usage = N ∧
      sP.gs[f 0]? = some g0 ∧ g0.pc = PC.idle ∧ 0 < g0.held ∧
      exec sP (soloDone (f 0)) = some sD ∧ sD.l.usage = N - 1 ∧ available sD.l = true ∧
      exec sD (List.replicate 8 (Event.run j)) = some sF ∧ sF.l.usage = N ∧
      sF.gs[j]? = some { gj with pc := PC.idle, held := gj.held + 1 } := by
  obtain ⟨sN, he, hl, hlen, hidle, hheld⟩ := seq_exec N n f hN hf N (Nat.le_refl N)
  have hjl : j < sN.gs.length := hlen ▸ hj
  have hgj : sN.gs[j]? = some (sN.gs[j]) := List.getElem?_eq_getElem hjl
  have hpj : (sN.gs[j]).pc = PC.idle := hidle _ (List.getElem?_mem hgj)
  have huN : sN.l.usage = N := by rw [hl]
  have hcN : sN.l.concurrency = N := by rw [hl]
  have hwN : sN.l.writer = false := by rw [hl]
  have hrN : sN.l.readers = 0 := by rw [hl]
  have haN : available sN.l = false := by
    rw [available_false_iff, huN, hcN]
    omega
  obtain ⟨p1, p2⟩ := exec_park sN j (sN.gs[j]) hgj hpj hwN haN
  obtain ⟨g0, hg0, hh0⟩ := hheld hN0
  have hp0 : g0.pc = PC.idle := hidle _ (List.getElem?_mem hg0)
  have hg0P : (sN.gs.set j { sN.gs[j] with pc := PC.sWaitPark, notified := false })[f 0]?
      = some g0 := by
    rw [List.getElem?_set_ne hjf]
    exact hg0
  obtain ⟨d1, _⟩ := exec_soloDone
    { l := sN.l, gs := sN.gs.set j { sN.gs[j] with pc := PC.sWaitPark, notified := false } }
    (f 0) g0 hg0P hp0 hwN hrN
  have huD : (addMax sN.l).usage = N - 1 := by
    rw [addMax_usage, huN, wrap_eq]
    rw [wrap_eq] at hN
    omega
  have haD : available (addMax sN.l) = true := by
    rw [available_iff, huD, addMax_concurrency, hcN]
    omega
  have hgjD : (List.map wake
      ((sN.gs.set j { sN.gs[j] with pc := PC.sWaitPark, notified := false }).set (f 0)
        { g0 with held := g0.held - 1, broadcast := true }))[j]? =
      some { sN.gs[j] with pc := PC.sWaitPark, notified := true } := by
    rw [List.getElem?_map, List.getElem?_set_ne (Ne.symm hjf), get_set_self _ hjl]
    simp [wake]
  have w1 := exec_wake
    { l := addMax sN.l,
      gs := List.map wake
        ((sN.gs.set j { sN.gs[j] with pc := PC.sWaitPark, notified := false }).set (f 0)
          { g0 with held := g0.held - 1, broadcast := true }) }
    j _ hgjD rfl rfl (by simp only [addMax_writer, hwN]) (by simp only [addMax_readers, hrN])
    haD
  have hjD : j < (List.map wake
      ((sN.gs.set j { sN.gs[j] with pc := PC.sWaitPark, notified := false }).set (f 0)
        { g0 with held := g0.held - 1, broadcast := true })).length := by
    simpa using hjl
  refine ⟨sN, _, _, _, _, g0, he, huN, haN, p1, get_set_self _ hjl, rfl, rfl, p2, huN, hg0P,
    hp0, hh0, d1 haD, huD, haD, w1, ?_, get_set_self _ hjD⟩
  rw [addOne_usage]
  simp only
  rw [huD, wrap_eq]
  rw [wrap_eq] at hN
  omega

/-! ## No missed wakeup -/

theorem keeps_append : ∀ (a b : List Event) (s s1 : State), exec s a = some s1 →
    keeps s (a ++ b) = (keeps s a && keeps s1 b)
  | [], b, s, s1, h => by
      simp [exec] at h
      subst h
      simp [keeps]
  | e :: a, b, s, s1, h => by
      simp only [exec] at h
      cases hs : step s e with
      | none => simp [hs] at h
      | some s2 =>
          simp only [hs] at h
          have ih := keeps_append a b s2 s1 h
          rw [List.cons_append]
          simp only [keeps, hs]
          rw [ih, Bool.and_assoc]

theorem incs_append (i : Nat) : ∀ (a b : List Event) (s s1 : State), exec s a = some s1 →
    incs i s (a ++ b) = incs i s a + incs i s1 b
  | [], b, s, s1, h => by
      simp [exec] at h
      subst h
      simp [incs]
  | e :: a, b, s, s1, h => by
      simp only [exec] at h
      cases hs : step s e with
      | none => simp [hs] at h
      | some s2 =>
          simp only [hs] at h
          have ih := incs_append i a b s2 s1 h
          rw [List.cons_append]
          simp only [incs, hs]
          rw [ih, Nat.add_assoc]

/-- The round `lassoRound` leads from `lassoState` back to `lassoState`, so
it can be repeated any number of times: the calling contract is kept
throughout and goroutine 1 never increments `usage`, hence never returns
from its `Start` call. -/
theorem lasso_repeats : ∀ (m : Nat),
    exec lassoState (lassoRounds m) = some lassoState ∧
    keeps lassoState (lassoRounds m) = true ∧
    incs 1 lassoState (lassoRounds m) = 0
  | 0 => ⟨rfl, rfl, rfl⟩
  | m + 1 => by
      obtain ⟨h1, h2, h3⟩ := lasso_repeats m
      have r1 : exec lassoState lassoRound = some lassoState := by decide
      have r2 : keeps lassoState lassoRound = true := by decide
      have r3 : incs 1 lassoState lassoRound = 0 := by decide
      refine ⟨?_, ?_, ?_⟩
      · simp only [lassoRounds]
        rw [exec_append, r1]
        exact h1
      · simp only [lassoRounds]
        rw [keeps_append _ _ _ _ r1, r2, h2]
        rfl
      · simp only [lassoRounds]
        rw [incs_append 1 _ _ _ _ r1, r3, h3]

/-! ## The claims -/

/-- C1: on a limit of capacity `c > 0`, in every state reached by any
interleaving of calls that keeps the calling contract, `usage ≤ c` when the
write lock is not held, and the number of callers that returned from `Start`
and have not called `Done` is at most `c`. -/
theorem usage_le_capacity (c n : Nat) (hc0 : 0 < c) (hc : c < wrap) (es : List Event)
    (s : State) (hk : keeps (init c n) es = true) (he : exec (init c n) es = some s) :
    (s.l.writer = false → s.l.usage ≤ c) ∧ outstanding s ≤ c := by
  have hi : UseInv c s :=
    exec_keeps_induct (UseInv c) (fun s e s1 hi ho h => UseInv_step hc0 hc s e s1 hi ho h)
      es (init c n) s he hk (UseInv_init c n)
  obtain ⟨_, _, hu, hle, _⟩ := hi
  refine ⟨fun _ => hle, ?_⟩
  have := total_mono (fun g => g.held) share (fun g => by simp [share]) s.gs
  unfold outstanding
  omega

/-- C1 at the run `demoRun`. -/
theorem usage_le_capacity_witness :
    (0 < 2 ∧ 2 < wrap ∧ keeps (init 2 3) demoRun = true ∧
      exec (init 2 3) demoRun = some demoEnd) ∧
    ((demoEnd.l.writer = false → demoEnd.l.usage ≤ 2) ∧ outstanding demoEnd ≤ 2) :=
  ⟨⟨by decide, by decide, by decide, by decide⟩,
    usage_le_capacity 2 3 (by decide) (by decide) demoRun demoEnd (by decide) (by decide)⟩

/-- C2: for every `0 < N < 2^32`, on `NewLimit(N)` with no `Done` call, each
of the first `N` calls of `Start` finds `available()` true at its wait-loop
check and at its re-check and returns with `usage` raised by one, from 0 up
to `N`; then `available()` is false and one more `Start` call goes to sleep
in its wait loop and cannot move; and after one `Done` call `usage` is
`N - 1`, `available()` is true again, and that `Start` call commits and
returns with `usage` back at `N`. -/
theorem capacity_admits_exactly (N n : Nat) (hN0 : 0 < N) (hN : N < wrap) (f : Nat → Nat)
    (hf : ∀ k, f k < n) (j : Nat) (hj : j < n) (hjf : j ≠ f 0) : Admission N n f j :=
  ⟨fun k hk => admission_first N n hN f hf k hk, admission_last N n hN0 hN f hf j hj hjf⟩

/-- C2 for capacity 2 and three goroutines: the callers 0 and 1, and the
late caller 2. -/
theorem capacity_admits_exactly_witness :
    (0 < 2 ∧ 2 < wrap ∧ (∀ k, k % 2 < 3) ∧ 2 < 3 ∧ 2 ≠ 0 % 2) ∧
    Admission 2 3 (fun k => k % 2) 2 :=
  ⟨⟨by decide, by decide, fun k => by omega, by decide, by decide⟩,
    capacity_admits_exactly 2 3 (by decide) (by decide) (fun k => k % 2)
      (fun k => Nat.lt_of_lt_of_le (Nat.mod_lt k (by decide)) (by decide)) 2
      (by decide) (by decide)⟩

/-- C3: on a limit created by `NewLimit(0)`, `available()` is true for every
usage (it is `concurrency == 0 OR usage < concurrency`); in every state
reached by any interleaving of calls no goroutine is inside `cond.Wait()`
or on the `goto reattempt` branch; and on a free lock a `Start` call of an
idle goroutine runs through its eight events and returns with `usage`
incremented. -/
theorem unlimited_never_waits (n : Nat) (es : List Event) (s : State)
    (he : exec (init 0 n) es = some s) :
    (∀ l : Limit, available l = true ↔ (l.concurrency = 0 ∨ l.usage < l.concurrency)) ∧
    (∀ u r w, available (Limit.mk 0 u r w) = true) ∧
    s.l.concurrency = 0 ∧ available s.l = true ∧
    (∀ g ∈ s.gs, onCond g = false ∧ g.pc ≠ PC.sRetry) ∧
    (∀ (i : Nat) (g : Goroutine), s.gs[i]? = some g → g.pc = PC.idle → s.l.writer = false →
      s.l.readers = 0 →
      exec s (soloStart i) =
        some { l := addOne s.l, gs := s.gs.set i { g with held := g.held + 1 } }) := by
  have hi : FreeInv s := exec_induct FreeInv FreeInv_step es (init 0 n) s he (FreeInv_init n)
  have ha : available s.l = true := (available_iff s.l).2 (Or.inl hi.1)
  refine ⟨available_iff, fun u r w => (available_iff _).2 (Or.inl rfl), hi.1, ha, ?_, ?_⟩
  · intro g hg
    obtain ⟨j, hj⟩ := List.getElem?_of_mem hg
    exact hi.2 j g hj
  · intro i g hg hp hw hr
    exact exec_soloStart s i g hg hp hw hr ha

/-- C3 at the run `freeRun`. -/
theorem unlimited_never_waits_witness :
    exec (init 0 2) freeRun = some freeEnd ∧
    (∀ g ∈ freeEnd.gs, onCond g = false ∧ g.pc ≠ PC.sRetry) :=
  ⟨by decide, (unlimited_never_waits 2 freeRun freeEnd (by decide)).2.2.2.2.1⟩

/-- C4: for every capacity, after a run of calls on a fresh limit in which
all calls have completed and every initial part of which has at least as
many `Start` calls as `Done` calls, `usage` is the number of `Start` calls
minus the number of `Done` calls modulo `2^32`; it is 0 when the two numbers
are equal. -/
theorem balanced_calls_usage (c n : Nat) (es : List Event) (s : State)
    (he : exec (init c n) es = some s) (hq : ∀ g ∈ s.gs, g.pc = PC.idle)
    (hb : ∀ k, k ≤ es.length → dones (es.take k) ≤ starts (es.take k)) :
    s.l.usage = (starts es - dones es) % wrap ∧ (starts es = dones es → s.l.usage = 0) := by
  obtain ⟨h1, h2⟩ := exec_count es (init c n) s he
  have z1 : total pendS s.gs = 0 :=
    total_zero pendS s.gs (fun g hg => by simp [pendS, hq g hg])
  have z2 : total pendD s.gs = 0 :=
    total_zero pendD s.gs (fun g hg => by simp [pendD, hq g hg])
  have z3 : total pendS (init c n).gs = 0 := total_replicate_zero pendS fresh rfl n
  have z4 : total pendD (init c n).gs = 0 := total_replicate_zero pendD fresh rfl n
  have z5 : (init c n).l.usage = 0 := rfl
  have hle := hb es.length (Nat.le_refl _)
  rw [List.take_length] at hle
  rw [z1, z2, z3, z4, z5] at h1
  have hu := h2 (by rw [z5]; decide)
  rw [wrap_eq]
  constructor
  · omega
  · intro h
    omega

/-- C4 at the run `pairRun`. -/
theorem balanced_calls_usage_witness :
    (exec (init 1 2) pairRun = some pairEnd ∧ (∀ g ∈ pairEnd.gs, g.pc = PC.idle) ∧
      (∀ k, k ≤ pairRun.length → dones (pairRun.take k) ≤ starts (pairRun.take k))) ∧
    (pairEnd.l.usage = (starts pairRun - dones pairRun) % wrap ∧
      (starts pairRun = dones pairRun → pairEnd.l.usage = 0)) :=
  ⟨⟨by decide, by decide, by decide⟩,
    balanced_calls_usage 1 2 pairRun pairEnd (by decide) (by decide) (by decide)⟩

/-- C5, counterexample: on a limit of capacity 1 with usage 0 the locked
section of `Done` leaves `broadcast` false; in the run `quietRun` goroutine 2
executes a whole `Done` call from the reachable state `quietMid` while
goroutine 1 sleeps in `cond.Wait()`, and goroutine 1 is not notified. -/
theorem done_may_skip_broadcast :
    Done (Limit.mk 1 0 0 false) = (Limit.mk 1 4294967295 0 false, false) ∧
    exec (init 1 3) quietRun = some quietEnd ∧
    exec quietMid (Event.callDone 2 :: List.replicate 5 (Event.run 2)) = some quietEnd ∧
    quietEnd.gs[1]? = some (Goroutine.mk PC.sWaitPark 0 false false) := by
  decide

/-- C5, as amended: a whole `Done` call of an idle goroutine on a free lock
decrements `usage` by one modulo `2^32` (by exactly one when `usage ≥ 1`),
leaves the capacity alone, and sets `broadcast` exactly when `available()`
holds after the decrement, which is the case when the capacity is 0 or
`1 ≤ usage ≤ capacity`; with `broadcast` set the call ends by notifying every
goroutine registered on the condition variable, otherwise it ends without
touching the other goroutines. -/
theorem done_decrements_and_wakes (s : State) (i : Nat) (g : Goroutine)
    (hg : s.gs[i]? = some g) (hp : g.pc = PC.idle) (hw : s.l.writer = false)
    (hr : s.l.readers = 0) :
    (Done s.l).1.usage = (4294967295 + s.l.usage) % wrap ∧
    (1 ≤ s.l.usage → s.l.usage < wrap → (Done s.l).1.usage + 1 = s.l.usage) ∧
    (Done s.l).1.concurrency = s.l.concurrency ∧
    ((Done s.l).2 = true ↔ available (Done s.l).1 = true) ∧
    (s.l.concurrency = 0 ∨ (1 ≤ s.l.usage ∧ s.l.usage ≤ s.l.concurrency) → (Done s.l).2 = true) ∧
    ((Done s.l).2 = true → ∃ s1, exec s (soloDone i) = some s1 ∧ s1.l = (Done s.l).1 ∧
      ∀ (j : Nat) (x : Goroutine), s1.gs[j]? = some x →
        x.pc = PC.sWaitUnlock ∨ x.pc = PC.sWaitPark → x.notified = true) ∧
    ((Done s.l).2 = false → ∃ s1,
      exec s (Event.callDone i :: List.replicate 5 (Event.run i)) = some s1 ∧
      s1.l = (Done s.l).1 ∧
      ∀ (j : Nat), j ≠ i → s1.gs[j]? = s.gs[j]?) := by
  obtain ⟨e1, e2⟩ := exec_soloDone s i g hg hp hw hr
  rw [Done_fst, Done_snd]
  refine ⟨addMax_usage _, ?_, addMax_concurrency _, Iff.rfl, ?_, ?_, ?_⟩
  · intro h1 h2
    rw [addMax_usage]
    rw [wrap_eq] at h2 ⊢
    omega
  · intro h
    rw [available_iff, addMax_usage, addMax_concurrency, wrap_eq]
    omega
  · intro ha
    exact ⟨_, e1 ha, by simp only, fun j x hx hpx => get_map_wake hx hpx⟩
  · intro ha
    refine ⟨_, e2 ha, by simp only, fun j hj => ?_⟩
    simp only
    rw [List.getElem?_set_ne (Ne.symm hj)]

/-- C5 as amended, at the state `demoMid`. -/
theorem done_decrements_and_wakes_witness :
    (demoMid.gs[0]? = some (Goroutine.mk PC.idle 1 false false) ∧
      demoMid.l.writer = false ∧ demoMid.l.readers = 0) ∧
    (Done demoMid.l).1.usage = (4294967295 + demoMid.l.usage) % wrap :=
  ⟨⟨by decide, by decide, by decide⟩,
    (done_decrements_and_wakes demoMid 0 (Goroutine.mk PC.idle 1 false false)
      (by decide) (by decide) (by decide) (by decide)).1⟩

/-- C6, counterexample: with the capacity `2^32 - 1` and usage 0 an unmatched
`Done` wraps `usage` to `2^32 - 1`, which equals the capacity and is not
greater than it. -/
theorem unmatched_done_at_max_capacity :
    (NewLimit 4294967295).concurrency = 4294967295 ∧ (NewLimit 4294967295).usage = 0 ∧
    (Done (NewLimit 4294967295)).1.usage = 4294967295 ∧
    ¬ ((NewLimit 4294967295).concurrency < (Done (NewLimit 4294967295)).1.usage) ∧
    exec (init 4294967295 1) (Event.callDone 0 :: List.replicate 5 (Event.run 0)) =
      some { l := Limit.mk 4294967295 4294967295 0 false, gs := [fresh] } := by
  decide

/-- C6, as amended: for a capacity `0 < c ≤ 2^32 - 1` and usage 0, a whole
`Done` call wraps `usage` to `2^32 - 1` and ends without broadcast; the
result is greater than `c`, outside of `0..c`, when `c < 2^32 - 1`, and
equal to `c` when `c = 2^32 - 1`. -/
theorem unmatched_done_wraps (s : State) (i : Nat) (g : Goroutine)
    (hg : s.gs[i]? = some g) (hp : g.pc = PC.idle) (hw : s.l.writer = false)
    (hr : s.l.readers = 0) (hu : s.l.usage = 0) (hc0 : 0 < s.l.concurrency)
    (hc : s.l.concurrency ≤ 4294967295) :
    (Done s.l).1.usage = 4294967295 ∧ (Done s.l).2 = false ∧
    (s.l.concurrency < 4294967295 → s.l.concurrency < (Done s.l).1.usage) ∧
    (s.l.concurrency = 4294967295 → (Done s.l).1.usage = s.l.concurrency) ∧
    ∃ s1, exec s (Event.callDone i :: List.replicate 5 (Event.run i)) = some s1 ∧
      s1.l = (Done s.l).1 := by
  obtain ⟨_, e2⟩ := exec_soloDone s i g hg hp hw hr
  have hu1 : (addMax s.l).usage = 4294967295 := by
    rw [addMax_usage, hu, wrap_eq]
  have ha : available (addMax s.l) = false := by
    rw [available_false_iff, hu1, addMax_concurrency]
    omega
  rw [Done_fst, Done_snd]
  refine ⟨hu1, ha, ?_, ?_, _, e2 ha, by simp only⟩
  · intro h
    rw [hu1]
    exact h
  · intro h
    rw [hu1, h]

/-- C6 as amended, at a fresh limit of capacity 1. -/
theorem unmatched_done_wraps_witness :
    ((init 1 1).gs[0]? = some fresh ∧ fresh.pc = PC.idle ∧ (init 1 1).l.writer = false ∧
      (init 1 1).l.readers = 0 ∧ (init 1 1).l.usage = 0 ∧ 0 < (init 1 1).l.concurrency ∧
      (init 1 1).l.concurrency ≤ 4294967295) ∧
    (Done (init 1 1).l).1.usage = 4294967295 :=
  ⟨⟨by decide, by decide, by decide, by decide, by decide, by decide, by decide⟩,
    (unmatched_done_wraps (init 1 1) 0 fresh (by decide) (by decide) (by decide) (by decide)
      (by decide) (by decide) (by decide)).1⟩

/-- C7: on a limit of capacity `c > 0` with `usage == c` in which no call is
in the middle of an update of `usage`, `available()` is false, and along
every run without a `Done` call `usage` and the capacity stay at `c`,
`available()` stays false, no goroutine reaches the increment or the return
of `Start`, and no caller gets one more returned `Start`. -/
theorem full_limit_blocks (c : Nat) (hc : 0 < c) (s : State) (hcap : s.l.concurrency = c)
    (hu : s.l.usage = c) (hs : ∀ g ∈ s.gs, settled g = true) (es : List Event)
    (hes : ∀ e ∈ es, ∀ i, e ≠ Event.callDone i) (s1 : State) (he : exec s es = some s1) :
    available s.l = false ∧ s1.l.usage = c ∧ s1.l.concurrency = c ∧
    available s1.l = false ∧ helds s1 = helds s ∧
    ∀ g ∈ s1.gs, g.pc ≠ PC.sAdd ∧ g.pc ≠ PC.sUnlock := by
  have h0 : FullInv c (helds s) s :=
    ⟨hcap, hu, fun j g hg => hs g (List.getElem?_mem hg), rfl⟩
  have h1 : FullInv c (helds s) s1 :=
    exec_induct_events (fun e => ∀ i, e ≠ Event.callDone i) (FullInv c (helds s))
      (fun s e s1 hq hi h => FullInv_step c hc (helds _) s e s1 hq hi h) es s s1 hes he h0
  obtain ⟨a1, a2, a3, a4⟩ := h1
  refine ⟨?_, a2, a1, ?_, a4, ?_⟩
  · rw [available_false_iff]
    omega
  · rw [available_false_iff]
    omega
  · intro g hg
    obtain ⟨j, hj⟩ := List.getElem?_of_mem hg
    have := a3 j g hj
    constructor <;> intro hp <;> simp [settled, hp] at this

/-- C7 at the state `fullOne`, reached by one whole `Start` call on a limit
of capacity 1, and a second `Start` call that goes to sleep. -/
theorem full_limit_blocks_witness :
    (exec (init 1 2) (soloStart 0) = some fullOne ∧ 0 < 1 ∧ fullOne.l.concurrency = 1 ∧
      fullOne.l.usage = 1 ∧ (∀ g ∈ fullOne.gs, settled g = true) ∧
      (∀ e ∈ Event.callStart 1 :: List.replicate 4 (Event.run 1), ∀ i, e ≠ Event.callDone i) ∧
      exec fullOne (Event.callStart 1 :: List.replicate 4 (Event.run 1)) = some fullOneAsleep) ∧
    (fullOneAsleep.l.usage = 1 ∧ helds fullOneAsleep = helds fullOne) :=
  ⟨⟨by decide, by decide, by decide, by decide, by decide, by simp [List.replicate],
      by decide⟩,
    let h := full_limit_blocks 1 (by decide) fullOne (by decide) (by decide) (by decide)
      (Event.callStart 1 :: List.replicate 4 (Event.run 1)) (by simp [List.replicate])
      fullOneAsleep (by decide)
    ⟨h.2.1, h.2.2.2.2.1⟩⟩

/-- C9: for a goroutine that holds the write lock in `Start` for its
re-check: when `available()` is false it unlocks, leaves `usage` and the
capacity alone and is back at the `reattempt` label; when `available()` is
true it increments `usage` by one (as `uint32`: modulo `2^32`, which is `+ 1`
unless `usage` is `2^32 - 1`), leaves the capacity alone, unlocks and returns.
And a `Start` call that returns has executed the increment exactly once in
between, whatever the other goroutines did and however often it restarted,
and has added one returned `Start` to its caller. -/
theorem start_commits_once (s : State) (i : Nat) (g : Goroutine) (hg : s.gs[i]? = some g) :
    (g.pc = PC.sRecheck → available s.l = false →
      Start s.l = none ∧
      exec s [Event.run i, Event.run i] =
        some { l := { s.l with writer := false }, gs := s.gs.set i { g with pc := PC.sRLock } }) ∧
    (g.pc = PC.sRecheck → available s.l = true →
      Start s.l = some (addOne s.l) ∧
      exec s [Event.run i, Event.run i, Event.run i] =
        some { l := { addOne s.l with writer := false },
               gs := s.gs.set i { g with pc := PC.idle, held := g.held + 1 } } ∧
      (addOne s.l).usage = (s.l.usage + 1) % wrap ∧
      (s.l.usage + 1 < wrap → (addOne s.l).usage = s.l.usage + 1) ∧
      (addOne s.l).concurrency = s.l.concurrency) ∧
    (g.pc = PC.idle → ∀ (es : List Event) (s1 : State) (g1 : Goroutine),
      (∀ e ∈ es, e ≠ Event.callStart i ∧ e ≠ Event.callDone i) →
      exec s (Event.callStart i :: es) = some s1 → s1.gs[i]? = some g1 → g1.pc = PC.idle →
      incs i s (Event.callStart i :: es) = 1 ∧ g1.held = g.held + 1) := by
  refine ⟨fun hp ha => ⟨?_, ?_⟩, fun hp ha => ⟨?_, ?_, addOne_usage _, ?_, addOne_concurrency _⟩,
    fun hp es s1 g1 hq he hg1 hp1 => ?_⟩
  · simp [Start, ha]
  · obtain ⟨pc, held, nt, bc⟩ := g
    simp only at hp
    subst hp
    have h2 : soloG 2 s.l (Goroutine.mk PC.sRecheck held nt bc) =
        some ({ s.l with writer := false }, Goroutine.mk PC.sRLock held nt bc) := by
      simp [soloG, stepG, ha]
    exact exec_solo_at 2 s _ _ _ i hg h2
  · simp [Start, ha]
  · obtain ⟨pc, held, nt, bc⟩ := g
    simp only at hp
    subst hp
    have h3 : soloG 3 s.l (Goroutine.mk PC.sRecheck held nt bc) =
        some ({ addOne s.l with writer := false }, Goroutine.mk PC.idle (held + 1) nt bc) := by
      simp [soloG, stepG, ha, addOne]
    exact exec_solo_at 3 s _ _ _ i hg h3
  · intro h
    rw [addOne_usage]
    exact Nat.mod_eq_of_lt h
  · have hs : step s (Event.callStart i) =
        some { s with gs := s.gs.set i { g with pc := PC.sRLock } } := by
      simp only [step, hg, hp, if_true]
    have he2 : exec { s with gs := s.gs.set i { g with pc := PC.sRLock } } es = some s1 := by
      simpa only [exec, hs] using he
    have hg2 : ({ s with gs := s.gs.set i { g with pc := PC.sRLock } } : State).gs[i]? =
        some { g with pc := PC.sRLock } := get_set_self _ (lt_of_get hg)
    have ph := incs_phase i es _ s1 _ g1 he2 hq hg2 hg1 hp1
    have hk := ph.1 rfl
    have hne : ¬ (Event.callStart i = Event.run i ∧
        Option.map (fun g => g.pc) s.gs[i]? = some PC.sAdd) := by
      intro h
      exact Event.noConfusion h.1
    simp only [incs, hs, hne, if_false, Nat.zero_add]
    exact hk

/-- C9 at the run `retryRun`, in which the re-check of goroutine 0 fails
once, in the state `retryMid`, before its `Start` call returns. -/
theorem start_commits_once_witness :
    ((init 1 2).gs[0]? = some fresh ∧ fresh.pc = PC.idle ∧
      (∀ e ∈ retryTail, e ≠ Event.callStart 0 ∧ e ≠ Event.callDone 0) ∧
      exec (init 1 2) retryRun = some retryEnd ∧
      exec (init 1 2) (Event.callStart 0 ::
        (List.replicate 3 (Event.run 0) ++ soloStart 1 ++ [Event.run 0])) = some retryMid ∧
      retries 0 (init 1 2) retryRun = 1) ∧
    (incs 0 (init 1 2) retryRun = 1 ∧ (Goroutine.mk PC.idle 1 false false).held = fresh.held + 1) :=
  ⟨⟨by decide, by decide, by decide, by decide, by decide, by decide⟩,
    (start_commits_once (init 1 2) 0 fresh (by decide)).2.2 (by decide) retryTail retryEnd
      (Goroutine.mk PC.idle 1 false false) (by decide) (by decide) (by decide) (by decide)⟩

/-- C10: for a goroutine that holds the write lock in `Done` and is about
to decrement: when the capacity is 0, or `1 ≤ usage ≤ capacity`, the
decrement leaves `available()` true and the call goes on to unlock and to
broadcast; when the call takes the branch without broadcast, the capacity
is positive and `usage` was 0 (an unmatched `Done`) or above the capacity. -/
theorem done_broadcast_branch (s : State) (i : Nat) (g : Goroutine)
    (hg : s.gs[i]? = some g) (hp : g.pc = PC.dAdd) (hb : g.broadcast = false) :
    (s.l.concurrency = 0 ∨ (0 < s.l.concurrency ∧ 1 ≤ s.l.usage ∧ s.l.usage ≤ s.l.concurrency) →
      (Done s.l).2 = true ∧ available (addMax s.l) = true ∧
      exec s (List.replicate 5 (Event.run i)) = some {
        l := { addMax s.l with writer := false },
        gs := (s.gs.set i { g with pc := PC.idle, broadcast := true }).map wake }) ∧
    ((Done s.l).2 = false →
      0 < s.l.concurrency ∧ (s.l.usage = 0 ∨ s.l.concurrency < s.l.usage)) ∧
    ((Done s.l).2 = false →
      exec s (List.replicate 4 (Event.run i)) = some {
        l := { addMax s.l with writer := false },
        gs := s.gs.set i { g with pc := PC.idle } }) := by
  have hi : i < s.gs.length := lt_of_get hg
  obtain ⟨pc, held, nt, bc⟩ := g
  simp only at hp hb
  subst hp hb
  have run4 : ∀ b : Bool, available (addMax s.l) = b →
      soloG 4 s.l (Goroutine.mk PC.dAdd held nt false) =
        some ({ addMax s.l with writer := false },
          Goroutine.mk (if b then PC.dBroadcast else PC.idle) held nt b) := by
    intro b hb
    cases b <;> simp [soloG, stepG, hb]
  have key : (s.l.concurrency = 0 ∨
      (0 < s.l.concurrency ∧ 1 ≤ s.l.usage ∧ s.l.usage ≤ s.l.concurrency)) →
      available (addMax s.l) = true := by
    intro h
    rw [available_iff, addMax_usage, addMax_concurrency, wrap_eq]
    omega
  rw [Done_snd]
  refine ⟨fun h => ⟨key h, key h, ?_⟩, fun h => ?_, fun h => ?_⟩
  · have e4 := exec_solo_at 4 s _ _ _ i hg (run4 true (key h))
    have : List.replicate 5 (Event.run i) = List.replicate 4 (Event.run i) ++ [Event.run i] := by
      simp [List.replicate]
    rw [this, exec_append, e4]
    simp only [Option.some_bind, if_true, exec]
    rw [step_run_set _ { addMax s.l with writer := false } _ (Goroutine.mk PC.idle held nt true)
      true hi (by simp [stepG])]
    simp
  · rw [available_false_iff, addMax_usage, addMax_concurrency, wrap_eq] at h
    omega
  · have e4 := exec_solo_at 4 s _ _ _ i hg (run4 false h)
    simpa using e4

/-- C10 at the state `demoLocked`, reached in `demoRun`. -/
theorem done_broadcast_branch_witness :
    (exec demoMid [Event.callDone 0, Event.run 0] = some demoLocked ∧
      demoLocked.gs[0]? = some (Goroutine.mk PC.dAdd 0 false false) ∧
      (0 < demoLocked.l.concurrency ∧ 1 ≤ demoLocked.l.usage ∧
        demoLocked.l.usage ≤ demoLocked.l.concurrency)) ∧
    (Done demoLocked.l).2 = true :=
  ⟨⟨by decide, by decide, by decide⟩,
    ((done_broadcast_branch demoLocked 0 (Goroutine.mk PC.dAdd 0 false false) (by decide)
      (by decide) (by decide)).1 (Or.inr (by decide))).1⟩
end limit
